import Mathlib

/-!
Verification development for the slab allocator in `src/realm/alloc_slab.cpp`
(class `SlabAlloc`).  The C++ code is shallowly embedded: the allocator object
becomes a `State` record, pointers become logical addresses (`Addr`), byte
buffers become `List Nat`, machine integers become `Nat` (all quantities
involved stay far below 2^64 in the modelled executions, and the source's
`size_t`/`uint64` arithmetic never relies on wrap-around in the modelled
paths), and fallible operations return `Except`.

Material that lives in the missing header `alloc_slab.hpp` (struct layouts,
flag constants, the `is_read_only` accessor) is modelled from the spec, as
marked on each definition.
-/

namespace RealmSlab

/-! ## Byte buffers -/

/-- Byte of a buffer at offset `i` (0 when out of range; the C++ code never
reads out of range on the paths modelled here). -/
def byteAt (d : List Nat) (i : Nat) : Nat := d.getD i 0

/-- Little-endian read of `n` bytes starting at offset `i`. -/
def readBytesLE (d : List Nat) : Nat → Nat → Nat
  | _, 0 => 0
  | i, n+1 => byteAt d i + 256 * readBytesLE d (i+1) n

/-- Little-endian unsigned 64-bit read at offset `i`, as done by the C++ code
when it casts `data` to `const uint64_t*` (the file format is little-endian,
spec section 6). -/
def u64At (d : List Nat) (i : Nat) : Nat := readBytesLE d i 8

/-- Little-endian store of the `n` low-order bytes of `v` at offset `i`. -/
def writeBytesLE : List Nat → Nat → Nat → Nat → List Nat
  | d, _, _, 0 => d
  | d, i, v, n+1 => writeBytesLE (d.set i (v % 256)) (i+1) (v / 256) n

/-- Little-endian unsigned 64-bit store at offset `i`. -/
def writeU64 (d : List Nat) (i : Nat) (v : Nat) : List Nat := writeBytesLE d i v 8

/-! ## Data model

Modelled from the spec (section 3) and the field usage in `alloc_slab.cpp`:
`Chunk` is a free-list entry `{ref, size}`, a `Slab` owns a heap buffer and
records the end `ref_end` of its ref range, with the start implicit
(previous slab's `ref_end`, or the baseline for the first slab). -/

structure Chunk where
  ref : Nat
  size : Nat
  deriving DecidableEq, Repr

instance : Inhabited Chunk := ⟨⟨0, 0⟩⟩

/-- One slab: the owned buffer contents stand in for `addr`; `ref_end` is the
end of the slab's ref range, as in the C++ `struct Slab`. -/
structure Slab where
  ref_end : Nat
  data : List Nat
  deriving DecidableEq, Repr

instance : Inhabited Slab := ⟨⟨0, []⟩⟩

/-- Free-space states, from the spec (section 3) and the
`free_space_Clean/Dirty/Invalid` constants used throughout the source. -/
inductive FreeSpaceState where
  | Clean
  | Dirty
  | Invalid
  deriving DecidableEq, Repr

/-- Attach modes, from the `attach_None/OwnedBuffer/UsersBuffer/SharedFile/
UnsharedFile` constants used in `detach` and the attach operations. -/
inductive AttachMode where
  | attach_None
  | attach_OwnedBuffer
  | attach_UsersBuffer
  | attach_SharedFile
  | attach_UnsharedFile
  deriving DecidableEq, Repr

/-- Logical address: a `char*` is either a position in the mapped file
(`m_data + off`) or a position inside one slab's buffer. -/
inductive Addr where
  | file (off : Nat)
  | slab (idx : Nat) (off : Nat)
  deriving DecidableEq, Repr

/-- Result of an allocation, as the C++ `MemRef { m_addr, m_ref }`.  The
address is an `Option` because `do_translate` on a ref outside every slab has
no defined result (the C++ dereferences `m_slabs.end()` there). -/
structure MemRef where
  addr : Option Addr
  ref : Nat
  deriving DecidableEq, Repr

/-- The allocator state: the `m_`-fields of `SlabAlloc`.  `data` is the
read-only mapped region (`m_data`, `none` when null), `baseline` is
`m_baseline`, `free_space` is the mutable free list `FM`, `free_read_only`
the read-only free list `FR`. -/
structure State where
  baseline : Nat
  data : Option (List Nat)
  slabs : List Slab
  free_space : List Chunk
  free_read_only : List Chunk
  free_space_state : FreeSpaceState
  attach_mode : AttachMode
  file_on_streaming_form : Bool
  file_format : Nat
  deriving DecidableEq, Repr

/-! ## Header validation (`SlabAlloc::validate_buffer`, lines 544-595) -/

/-- Error kinds raised by the modelled operations.  Each constructor
corresponds to one distinct `InvalidDatabase` message in the source. -/
inductive VErr where
  | BadSize
  | BadMagic
  | BadFormat
  | BadStreamingSize
  | BadHeader1
  | BadHeader2
  | BadHeader3
  | ServerSyncRequired
  | ServerSyncUnsupported
  deriving DecidableEq, Repr

/-- The streaming-form sentinel `0xFFFFFFFFFFFFFFFFULL`. -/
def sentinel : Nat := 0xFFFFFFFFFFFFFFFF

/-- Translation of `SlabAlloc::validate_buffer` (alloc_slab.cpp 544-595).
The buffer is `d`, its length is the file size; `lib` is the
`library_file_format` constant and `cookie` the `footer_magic_cookie`
constant (both declared in the missing header `alloc_slab.hpp`; the spec,
section 6, describes them as fixed small/64-bit constants, so they are
parameters here).  The result carries the top ref together with the value
the call leaves in `m_file_on_streaming_form` (callers preset it to
`false`; the streaming branch sets it to `true`).  Header size 24 and footer
size 16 are `sizeof (Header)` / `sizeof (StreamingFooter)`, modelled from
the spec's byte-exact layout (section 6).  Byte values 84, 45, 68, 66 are
the character literals of the magic. -/
def validate_buffer (lib cookie : Nat) (d : List Nat) (is_shared : Bool) :
    Except VErr (Nat × Bool) :=
  let size := d.length
  if size < 24 ∨ size % 8 ≠ 0 then .error .BadSize
  else if ¬ (byteAt d 16 = 84 ∧ byteAt d 17 = 45 ∧ byteAt d 18 = 68 ∧ byteAt d 19 = 66) then
    .error .BadMagic
  else
    let valid_part := byteAt d (16 + 7) % 2
    let file_format := byteAt d (16 + 4 + valid_part)
    let bad0 : Bool := decide (file_format ≠ lib)
    let bad_file_format : Bool :=
      if file_format = 2 ∧ lib = 3 ∧ is_shared = true then false else bad0
    if bad_file_format then .error .BadFormat
    else
      let r0 := u64At d (8 * valid_part)
      let rs : Except VErr (Nat × Bool) :=
        if valid_part = 0 ∧ r0 = sentinel then
          if size < 24 + 16 then .error .BadStreamingSize
          else if u64At d (size - 8) ≠ cookie then .error .BadHeader1
          else .ok (u64At d (size - 16), true)
        else .ok (r0, false)
      match rs with
      | .error e => .error e
      | .ok (r, streaming) =>
        if r % 8 ≠ 0 then .error .BadHeader2
        else if r ≥ size then .error .BadHeader3
        else .ok (r, streaming)

/-- Validation procedure written from the words of claim C2 (and spec
section 4.A): a chain of failure conditions, each an "iff" given that the
previous steps passed; to be compared with `validate_buffer`. -/
def validateSpec (lib cookie : Nat) (d : List Nat) (is_shared : Bool) :
    Except VErr (Nat × Bool) :=
  let size := d.length
  -- fails with a bad-size error iff size < 24 or size % 8 ≠ 0
  if size < 24 ∨ size % 8 ≠ 0 then .error .BadSize
  -- otherwise fails with a bad-magic error iff bytes 16..19 are not T,-,D,B
  else if ¬ (byteAt d 16 = 84 ∧ byteAt d 17 = 45 ∧ byteAt d 18 = 68 ∧ byteAt d 19 = 66) then
    .error .BadMagic
  else
    -- with select = byte 23 & 1, fails with a bad-format error iff the
    -- stored format F[select] differs from the library format, except that
    -- stored format 2 with library format 3 is accepted in shared mode
    let select := byteAt d 23 % 2
    let stored := byteAt d (20 + select)
    if stored ≠ lib ∧ ¬ (stored = 2 ∧ lib = 3 ∧ is_shared = true) then .error .BadFormat
    else
      -- when select = 0 and T[0] is the sentinel: require size ≥ 40 and a
      -- matching footer magic cookie, take r = footer.top_ref and set the
      -- streaming flag; else take r = T[select]
      let rs : Except VErr (Nat × Bool) :=
        if select = 0 ∧ u64At d 0 = sentinel then
          if size < 40 then .error .BadStreamingSize
          else if u64At d (size - 8) ≠ cookie then .error .BadHeader1
          else .ok (u64At d (size - 16), true)
        else .ok (u64At d (8 * select), false)
      match rs with
      | .error e => .error e
      | .ok (r, streaming) =>
        -- fails with bad-header#2 iff r % 8 ≠ 0, with bad-header#3 iff
        -- r ≥ size, and otherwise returns r as the top ref
        if r % 8 ≠ 0 then .error .BadHeader2
        else if r ≥ size then .error .BadHeader3
        else .ok (r, streaming)

/-- Claim C2: `validate_buffer` realises exactly the error chain stated in
the claim: bad-size iff `size < 24 ∨ size % 8 ≠ 0`; then bad-magic iff the
magic bytes differ; then bad-format iff the selected stored format is not
the library format (modulo the 2-with-3 shared-mode upgrade); then the
streaming-form footer handling; finally bad-header#2 iff `r % 8 ≠ 0` and
bad-header#3 iff `r ≥ size`, else the top ref is returned. -/
theorem validate_buffer_matches_spec (lib cookie : Nat) (d : List Nat) (is_shared : Bool) :
    validate_buffer lib cookie d is_shared = validateSpec lib cookie d is_shared := by
  unfold validate_buffer validateSpec
  simp only []
  by_cases h1 : d.length < 24 ∨ d.length % 8 ≠ 0
  · rw [if_pos h1, if_pos h1]
  · rw [if_neg h1, if_neg h1]
    by_cases h2 : byteAt d 16 = 84 ∧ byteAt d 17 = 45 ∧ byteAt d 18 = 68 ∧ byteAt d 19 = 66
    · rw [if_neg (not_not_intro h2), if_neg (not_not_intro h2)]
      have e23 : (16 + 7 : Nat) = 23 := rfl
      rw [e23]
      have e20 : 16 + 4 + byteAt d 23 % 2 = 20 + byteAt d 23 % 2 := by omega
      rw [e20]
      by_cases hf : byteAt d (20 + byteAt d 23 % 2) ≠ lib ∧
          ¬ (byteAt d (20 + byteAt d 23 % 2) = 2 ∧ lib = 3 ∧ is_shared = true)
      · have hbool : (if byteAt d (20 + byteAt d 23 % 2) = 2 ∧ lib = 3 ∧ is_shared = true
            then false else decide (byteAt d (20 + byteAt d 23 % 2) ≠ lib)) = true := by
          rw [if_neg hf.2]; exact decide_eq_true hf.1
        rw [hbool, if_pos rfl, if_pos hf]
      · have hbool : (if byteAt d (20 + byteAt d 23 % 2) = 2 ∧ lib = 3 ∧ is_shared = true
            then false else decide (byteAt d (20 + byteAt d 23 % 2) ≠ lib)) = false := by
          by_cases hc : byteAt d (20 + byteAt d 23 % 2) = 2 ∧ lib = 3 ∧ is_shared = true
          · rw [if_pos hc]
          · rw [if_neg hc]
            have heq : byteAt d (20 + byteAt d 23 % 2) = lib := by
              by_contra hne; exact hf ⟨hne, hc⟩
            simp [heq]
        rw [hbool, if_neg (by simp), if_neg hf]
        by_cases hs : byteAt d 23 % 2 = 0 ∧ u64At d 0 = sentinel
        · have hs' : byteAt d 23 % 2 = 0 ∧ u64At d (8 * (byteAt d 23 % 2)) = sentinel := by
            refine ⟨hs.1, ?_⟩
            rw [hs.1]
            simpa using hs.2
          rw [if_pos hs', if_pos hs]
        · have hs' : ¬ (byteAt d 23 % 2 = 0 ∧ u64At d (8 * (byteAt d 23 % 2)) = sentinel) := by
            intro hc
            refine hs ⟨hc.1, ?_⟩
            have h0 := hc.2
            rw [hc.1] at h0
            simpa using h0
          rw [if_neg hs', if_neg hs]
    · rw [if_pos h2, if_pos h2]

/-! ## List helpers mirroring the C++ idioms

The source uses `std::find_if` (first match), erase by "move last over"
(`*i = v.back(); v.pop_back()`), and a reverse first-fit scan.  They are
modelled here on `List`. -/

/-- Index of the first element satisfying `p`, as `std::find_if`. -/
def findIdxA (p : α → Bool) : List α → Option Nat
  | [] => none
  | a :: l => if p a then some 0 else (findIdxA p l).map (· + 1)

/-- Reverse scan: index (from the front) of the last element satisfying `p`,
as iterating `rbegin()..rend()` and taking the first hit. -/
def revFindIdx? (p : α → Bool) (l : List α) : Option Nat :=
  (findIdxA p l.reverse).map (fun k => l.length - 1 - k)

/-- Erase by "move last over": overwrite position `i` with the last element
and pop the last element. -/
def eraseSwap (l : List Chunk) (i : Nat) : List Chunk :=
  (l.set i (l.getLast?.getD default)).dropLast

/-! ## Ref translation (`SlabAlloc::do_translate`, lines 362-375) -/

/-- Start of slab `i`'s ref range: `i == 0 ? m_baseline : slabs[i-1].ref_end`
(alloc_slab.cpp line 373). -/
def slabStart (s : State) (i : Nat) : Nat :=
  if i = 0 then s.baseline else (s.slabs.getD (i-1) default).ref_end

/-- End of slab `i`'s ref range (`slabs[i].ref_end`). -/
def slabEnd (s : State) (i : Nat) : Nat := (s.slabs.getD i default).ref_end

/-- Translation of `SlabAlloc::do_translate` (lines 362-375).  Refs below the
baseline map into the file; otherwise `std::upper_bound` over the slab vector
(sorted by `ref_end`) finds the first slab with `ref < ref_end` — on the
sorted vector this is the first match, modelled by `findIdxA` — and the
offset within that slab is `ref - slab_ref`.  When no slab contains the ref
the C++ dereferences `m_slabs.end()` (debug-asserted); the model returns
`none`. -/
def do_translate (s : State) (ref : Nat) : Option Addr :=
  if ref < s.baseline then some (.file ref)
  else
    match findIdxA (fun sl => decide (ref < sl.ref_end)) s.slabs with
    | none => none
    | some i => some (.slab i (ref - slabStart s i))

/-! ## Allocation (`SlabAlloc::do_alloc`, lines 151-249) -/

/-- Error raised by `do_alloc`/`get_free_read_only` when free-space tracking
was lost (`InvalidFreeSpace`, lines 26-32). -/
inductive AllocErr where
  | InvalidFreeSpace
  deriving DecidableEq, Repr

/-- Translation of `SlabAlloc::do_alloc` (lines 151-249).  The result pair
carries the (possibly error) outcome together with the post state (the C++
object survives a thrown exception unchanged).  First the reverse first-fit
scan over `m_free_space`; a hit either erases the chunk (exact fit, by
move-last-over) or shrinks it in place (`ref += size; size -= size`).
Otherwise a new slab is appended: `new_size` is `((size-1) | 255) + 1`
rounded further up to twice the span of the current last slab, the slab is
zero-initialized, and a trailing free chunk covers the unused part.  Heap
exhaustion (`new char[]`/`push_back` throwing `std::bad_alloc`) is not
modelled; the `InvalidFreeSpace` check is. -/
def do_alloc (s : State) (size : Nat) : Except AllocErr MemRef × State :=
  if s.free_space_state = .Invalid then (.error .InvalidFreeSpace, s)
  else
    let s0 : State := { s with free_space_state := .Dirty }
    match revFindIdx? (fun c => decide (size ≤ c.size)) s0.free_space with
    | some j =>
        let c := s0.free_space.getD j default
        let rest := c.size - size
        let fs' := if rest = 0 then eraseSwap s0.free_space j
                   else s0.free_space.set j ⟨c.ref + size, rest⟩
        let s' := { s0 with free_space := fs' }
        (.ok ⟨do_translate s' c.ref, c.ref⟩, s')
    | none =>
        let new_size0 := ((size - 1) ||| 255) + 1
        let rv : Nat × Nat :=
          if s0.slabs = [] then (s0.baseline, new_size0)
          else
            let curr_ref_end := (s0.slabs.getLast?.getD default).ref_end
            let prev_ref_end := if s0.slabs.length = 1 then s0.baseline
                                else (s0.slabs.getD (s0.slabs.length - 2) default).ref_end
            let min_size := 2 * (curr_ref_end - prev_ref_end)
            (curr_ref_end, if new_size0 < min_size then min_size else new_size0)
        let ref := rv.1
        let new_size := rv.2
        let slab : Slab := ⟨ref + new_size, List.replicate new_size 0⟩
        let s1 := { s0 with slabs := s0.slabs ++ [slab] }
        let unused := new_size - size
        let s2 := if 0 < unused
                  then { s1 with free_space := s1.free_space ++ [⟨ref + size, unused⟩] }
                  else s1
        (.ok ⟨some (.slab s0.slabs.length 0), ref⟩, s2)

/-! ## Free (`SlabAlloc::do_free`, lines 252-329) -/

/-- Helper for `do_free`: write back the selected free list (`m_free_read_only`
or `m_free_space`) and record the Dirty state set at line 281. -/
def setFreeList (s : State) (read_only : Bool) (fs : List Chunk) : State :=
  if read_only then { s with free_read_only := fs, free_space_state := .Dirty }
  else { s with free_space := fs, free_space_state := .Dirty }

/-- Translation of `SlabAlloc::do_free` (lines 252-329).  The C++ reads the
block's size from the segment header behind `addr` (an accessor of the array
subsystem, outside the allocator); here the size is a parameter.  `push_ok`
models whether the final `push_back` succeeds: `false` is the
out-of-memory injection, caught at lines 325-327 by setting the state to
Invalid.  Steps: return unchanged when tracking is Invalid; pick the list by
`ref < m_baseline`; merge with a successor chunk at `ref + size` unless a
slab boundary coincides with `ref + size`; merge with a predecessor chunk
ending at `ref` unless a slab boundary coincides with `ref` (combining both
merges erases the successor by move-last-over); otherwise append `{ref,
size}`. -/
def do_free (s : State) (ref size : Nat) (push_ok : Bool) : State :=
  if s.free_space_state = .Invalid then s
  else
    let read_only : Bool := decide (ref < s.baseline)
    let fs0 := if read_only then s.free_read_only else s.free_space
    let ref_end := ref + size
    let succIdx : Option Nat :=
      match findIdxA (fun c => decide (c.ref = ref_end)) fs0 with
      | some j =>
          if findIdxA (fun sl => decide (sl.ref_end = ref_end)) s.slabs = none then some j
          else none
      | none => none
    let fs1 := match succIdx with
      | some j => fs0.set j ⟨ref, (fs0.getD j default).size + size⟩
      | none => fs0
    let predIdx : Option Nat :=
      if findIdxA (fun sl => decide (sl.ref_end = ref)) s.slabs = none then
        findIdxA (fun c => decide (c.ref + c.size = ref)) fs1
      else none
    match predIdx with
    | some i =>
        match succIdx with
        | some j =>
            let fs2 := fs1.set i ⟨(fs1.getD i default).ref,
                                  (fs1.getD i default).size + (fs1.getD j default).size⟩
            setFreeList s read_only (eraseSwap fs2 j)
        | none =>
            setFreeList s read_only (fs1.set i ⟨(fs1.getD i default).ref,
                                                (fs1.getD i default).size + size⟩)
    | none =>
        match succIdx with
        | some _ => setFreeList s read_only fs1
        | none =>
            if push_ok then setFreeList s read_only (fs1 ++ [⟨ref, size⟩])
            else { s with free_space_state := .Invalid }

/-! ## Memory access and realloc (`SlabAlloc::do_realloc`, lines 332-360) -/

/-- Advance an address by `k` bytes. -/
def addrAdd (a : Addr) (k : Nat) : Addr :=
  match a with
  | .file o => .file (o + k)
  | .slab i o => .slab i (o + k)

/-- Read one byte through a logical address. -/
def readByte (s : State) (a : Addr) : Nat :=
  match a with
  | .file off => byteAt (s.data.getD []) off
  | .slab i off => byteAt (s.slabs.getD i default).data off

/-- Write one byte through a logical address.  The file region is mapped
read-only, so a file address is left unchanged (the allocator itself never
writes there). -/
def writeByteAddr (s : State) (a : Addr) (v : Nat) : State :=
  match a with
  | .file _ => s
  | .slab i off =>
      let sl := s.slabs.getD i default
      { s with slabs := s.slabs.set i { sl with data := sl.data.set off v } }

/-- Forward byte copy, as `std::copy(addr, addr + old_size, new_addr)`:
`k` is the next byte index, `rem` the bytes still to copy. -/
def copyLoop (src dst : Addr) : Nat → Nat → State → State
  | _, 0, s => s
  | k, rem + 1, s =>
      copyLoop src dst (k + 1) rem (writeByteAddr s (addrAdd dst k) (readByte s (addrAdd src k)))

/-- Copy `n` bytes from `src` to `dst`. -/
def copyBytes (src dst : Addr) (n : Nat) (s : State) : State := copyLoop src dst 0 n s

/-- Translation of `SlabAlloc::do_realloc` (lines 332-360): allocate
`new_size`, copy `old_size` bytes across, then free the old block.
`free_size` is the size `do_free` will read from the old block's segment
header; `push_ok` is threaded to `do_free`'s `push_back`. -/
def do_realloc (s : State) (ref old_size new_size free_size : Nat) (push_ok : Bool) :
    Except AllocErr MemRef × State :=
  match do_alloc s new_size with
  | (.error e, s') => (.error e, s')
  | (.ok mem, s') =>
      let s'' := match do_translate s' ref, mem.addr with
        | some src, some dst => copyBytes src dst old_size s'
        | _, _ => s'
      (.ok mem, do_free s'' ref free_size push_ok)

/-! ## Reset, remap, diagnostics -/

/-- One free chunk per slab, each spanning its whole slab, in slab order:
the list built by the loop of `reset_free_space_tracking` (lines 641-649). -/
def canonicalChunks (base : Nat) : List Slab → List Chunk
  | [] => []
  | sl :: rest => ⟨base, sl.ref_end - base⟩ :: canonicalChunks sl.ref_end rest

/-- Translation of `SlabAlloc::reset_free_space_tracking` (lines 630-654):
no-op when Clean; otherwise clear both free lists, rebuild `m_free_space`
with one whole-slab chunk per slab, and set the state to Clean. -/
def reset_free_space_tracking (s : State) : State :=
  if s.free_space_state = .Clean then s
  else
    { s with free_read_only := []
           , free_space := canonicalChunks s.baseline s.slabs
           , free_space_state := .Clean }

/-- The parallel walk of `SlabAlloc::remap` (lines 670-681): rebase each free
chunk to the running `slab_ref` and move the matching slab's `ref_end`, for
`n = m_free_space.size()` steps (the source asserts `m_slabs.size() == n`,
so the recursion consumes both lists together). -/
def rebase (slab_ref : Nat) : List Chunk → List Slab → List Chunk × List Slab
  | c :: cs, sl :: sls =>
      let p := rebase (slab_ref + c.size) cs sls
      (⟨slab_ref, c.size⟩ :: p.1, ⟨slab_ref + c.size, sl.data⟩ :: p.2)
  | cs, sls => (cs, sls)

/-- Translation of `SlabAlloc::remap` (lines 657-684): update the baseline to
the new file size and rebase slabs and free list in parallel.  The fresh
read-only mapping's contents and the address-changed return value concern
the file system and are not modelled. -/
def remap (s : State) (file_size : Nat) : State :=
  let p := rebase file_size s.free_space s.slabs
  { s with baseline := file_size, free_space := p.1, slabs := p.2 }

/-- Loop of `SlabAlloc::is_all_free` (lines 702-714): for each slab find a
chunk starting at the slab's start and check it spans the slab. -/
def allFreeLoop (fs : List Chunk) : Nat → List Slab → Bool
  | _, [] => true
  | slab_ref, sl :: rest =>
      match findIdxA (fun c => decide (c.ref = slab_ref)) fs with
      | none => false
      | some j =>
          if sl.ref_end - slab_ref = (fs.getD j default).size then allFreeLoop fs sl.ref_end rest
          else false

/-- Translation of `SlabAlloc::is_all_free` (lines 696-716). -/
def is_all_free (s : State) : Bool :=
  if s.free_space.length = s.slabs.length then allFreeLoop s.free_space s.baseline s.slabs
  else false

/-- Translation of `SlabAlloc::get_free_read_only` (lines 686-691). -/
def get_free_read_only (s : State) : Except AllocErr (List Chunk) :=
  if s.free_space_state = .Invalid then .error .InvalidFreeSpace
  else .ok s.free_read_only

/-- Translation of `SlabAlloc::get_total_size` (lines 624-627). -/
def get_total_size (s : State) : Nat :=
  if s.slabs = [] then s.baseline else (s.slabs.getLast?.getD default).ref_end

/-! ## Attachment lifecycle -/

/-- Translation of `SlabAlloc::detach` (lines 99-117): release according to
mode and set `m_attach_mode = attach_None`.  Freeing/unmapping `m_data` and
closing the file are I/O effects with no bearing on the logical state
(`m_data` itself is not nulled by the source). -/
def detach (s : State) : State := { s with attach_mode := .attach_None }

/-- Translation of `SlabAlloc::attach_empty` (lines 527-542): owned-buffer
mode with a null `m_data` and a header-sized baseline (`sizeof (Header) =
24`, layout modelled from the spec, section 6). -/
def attach_empty (s : State) : State :=
  { s with attach_mode := .attach_OwnedBuffer, data := none, baseline := 24 }

/-- Translation of `SlabAlloc::attach_buffer` (lines 498-524): validate the
user's buffer (never shared), record the selected file format (select bit =
bit 0 of the flags byte, modelled from the spec, section 6), and adopt the
buffer without ownership.  On a validation error the allocator is left
unchanged (detached). -/
def attach_buffer (lib cookie : Nat) (s : State) (d : List Nat) :
    Except VErr (Nat × State) :=
  match validate_buffer lib cookie d false with
  | .error e => .error e
  | .ok (top_ref, streaming) =>
      let select_field := byteAt d 23 % 2
      .ok (top_ref,
        { s with data := some d
               , baseline := d.length
               , attach_mode := .attach_UsersBuffer
               , file_on_streaming_form := streaming
               , file_format := byteAt d (20 + select_field) })

/-- Translation of the in-memory effect of `SlabAlloc::attach_file` (lines
385-496) on an existing file whose current contents are `d`: validate
(unless `skip_validate`, which leaves the top ref 0 and the streaming flag
false), enforce that the requested server-sync mode matches the stored bit
(bit 1 of the flags byte, modelled from the spec, section 6), record the
selected file format, adopt the mapping, and set the free-space state to
Invalid (line 492).  File creation, preallocation, syncing and encryption
are I/O concerns outside the model. -/
def attach_file (lib cookie : Nat) (s : State) (d : List Nat)
    (is_shared skip_validate server_sync : Bool) : Except VErr (Nat × State) :=
  let vres : Except VErr (Nat × Bool) :=
    if skip_validate then .ok (0, false) else validate_buffer lib cookie d is_shared
  match vres with
  | .error e => .error e
  | .ok (top_ref, streaming) =>
      let stored_sync := byteAt d 23 / 2 % 2 = 1
      if server_sync = true ∧ ¬ stored_sync then .error .ServerSyncUnsupported
      else if server_sync = false ∧ stored_sync then .error .ServerSyncRequired
      else
        let select_field := byteAt d 23 % 2
        .ok (top_ref,
          { s with data := some d
                 , baseline := d.length
                 , attach_mode := if is_shared then .attach_SharedFile else .attach_UnsharedFile
                 , file_on_streaming_form := streaming
                 , file_format := byteAt d (20 + select_field)
                 , free_space_state := .Invalid })

/-- Translation of `SlabAlloc::get_committed_file_format` (lines 377-383):
read the selected format byte through `m_data`.  The read is only defined
when `m_data` is not null, which the `Option` records. -/
def get_committed_file_format (s : State) : Option Nat :=
  s.data.map (fun d => byteAt d (20 + byteAt d 23 % 2))

/-- Translation of `SlabAlloc::do_prepare_for_update` (lines 598-621) acting
on the writable mapping `d` of the attached file (`m_baseline` bytes): copy
the footer's `top_ref` into header slot `T[1]`, sync (an I/O effect), set
the select bit (bit 0 of the flags byte, keeping the server-sync bit), and
clear `m_file_on_streaming_form`. -/
def do_prepare_for_update (s : State) (d : List Nat) : List Nat × State :=
  let footer_top := u64At d (s.baseline - 16)
  let d1 := writeU64 d 8 footer_top
  let d2 := d1.set 23 (byteAt d1 23 ||| 1)
  (d2, { s with file_on_streaming_form := false })

/-! ## Lemmas about the list helpers -/

theorem getD_set_self {l : List α} {i : Nat} {a d : α} (h : i < l.length) :
    (l.set i a).getD i d = a := by
  induction l generalizing i with
  | nil => simp at h
  | cons x t ih =>
      cases i with
      | zero => rfl
      | succ k => exact ih (by simpa using h)

theorem getD_set_ne {l : List α} {i j : Nat} {a d : α} (h : i ≠ j) :
    (l.set i a).getD j d = l.getD j d := by
  induction l generalizing i j with
  | nil => rfl
  | cons x t ih =>
      cases i with
      | zero =>
          cases j with
          | zero => exact absurd rfl h
          | succ k => rfl
      | succ m =>
          cases j with
          | zero => rfl
          | succ k => exact ih (fun hc => h (by rw [hc]))

theorem mem_set {l : List α} {i : Nat} {a b : α} (h : b ∈ l.set i a) : b = a ∨ b ∈ l := by
  induction l generalizing i with
  | nil => simp at h
  | cons x t ih =>
      cases i with
      | zero =>
          rcases List.mem_cons.mp h with h' | h'
          · exact Or.inl h'
          · exact Or.inr (List.mem_cons_of_mem _ h')
      | succ k =>
          rcases List.mem_cons.mp h with h' | h'
          · exact Or.inr (h' ▸ List.mem_cons_self _ _)
          · rcases ih h' with h'' | h''
            · exact Or.inl h''
            · exact Or.inr (List.mem_cons_of_mem _ h'')

theorem getD_mem {l : List α} {i : Nat} {d : α} (h : i < l.length) : l.getD i d ∈ l := by
  induction l generalizing i with
  | nil => simp at h
  | cons x t ih =>
      cases i with
      | zero => exact List.mem_cons_self _ _
      | succ k => exact List.mem_cons_of_mem _ (ih (by simpa using h))

theorem byteAt_set_ne {d : List Nat} {j i x : Nat} (h : j ≠ i) :
    byteAt (d.set j x) i = byteAt d i := getD_set_ne h

theorem byteAt_set_self {d : List Nat} {i x : Nat} (h : i < d.length) :
    byteAt (d.set i x) i = x := getD_set_self h

theorem getD_append_left {l l' : List α} {i : Nat} {d : α} (h : i < l.length) :
    (l ++ l').getD i d = l.getD i d := by
  induction l generalizing i with
  | nil => simp at h
  | cons x t ih =>
      cases i with
      | zero => rfl
      | succ k => exact ih (by simpa using h)

theorem getD_append_length {l l' : List α} {x : α} {d : α} :
    (l ++ x :: l').getD l.length d = x := by
  induction l with
  | nil => rfl
  | cons y t ih => simpa using ih

theorem getLast?_getD_eq {l : List α} {d : α} (h : l ≠ []) :
    l.getLast?.getD d = l.getD (l.length - 1) d := by
  induction l with
  | nil => exact absurd rfl h
  | cons x t ih =>
      cases t with
      | nil => rfl
      | cons y u =>
          have := ih (by simp)
          simpa [List.getLast?] using this

theorem mem_dropLast {l : List α} {a : α} (h : a ∈ l.dropLast) : a ∈ l := by
  induction l with
  | nil => simp at h
  | cons x t ih =>
      cases t with
      | nil => simp at h
      | cons y u =>
          rcases List.mem_cons.mp h with h' | h'
          · exact h' ▸ List.mem_cons_self _ _
          · exact List.mem_cons_of_mem _ (ih h')

theorem getD_zero {a d : α} {l : List α} : (a :: l).getD 0 d = a := rfl

theorem getD_succ {a d : α} {l : List α} {i : Nat} : (a :: l).getD (i+1) d = l.getD i d := rfl

theorem mem_eraseSwap {l : List Chunk} {i : Nat} {a : Chunk} (h : a ∈ eraseSwap l i) :
    a ∈ l := by
  rcases l with _ | ⟨x, t⟩
  · simpa [eraseSwap] using h
  · unfold eraseSwap at h
    have h1 := mem_dropLast h
    rcases mem_set h1 with h2 | h2
    · subst h2
      have hne : x :: t ≠ [] := by simp
      rw [List.getLast?_eq_getLast _ hne]
      simpa using List.getLast_mem hne
    · exact h2

theorem findIdxA_none {p : α → Bool} {l : List α} (h : findIdxA p l = none) :
    ∀ a ∈ l, p a = false := by
  induction l with
  | nil => intro a ha; simp at ha
  | cons x t ih =>
      intro a ha
      unfold findIdxA at h
      by_cases hx : p x
      · simp [hx] at h
      · rcases List.mem_cons.mp ha with h' | h'
        · subst h'; exact Bool.eq_false_iff.mpr hx
        · refine ih ?_ a h'
          rcases hfi : findIdxA p t with _ | k
          · rfl
          · rw [if_neg hx, hfi] at h
            simp at h

theorem findIdxA_some {p : α → Bool} {l : List α} {i : Nat} {d : α}
    (h : findIdxA p l = some i) : i < l.length ∧ p (l.getD i d) = true := by
  induction l generalizing i with
  | nil => simp [findIdxA] at h
  | cons x t ih =>
      unfold findIdxA at h
      by_cases hx : p x
      · rw [if_pos hx] at h
        have : i = 0 := by simpa using h.symm
        subst this
        exact ⟨by simp, hx⟩
      · rw [if_neg hx] at h
        rcases hfi : findIdxA p t with _ | k
        · rw [hfi] at h; simp at h
        · rw [hfi] at h
          have hik : i = k + 1 := by simpa using h.symm
          subst hik
          have := ih hfi
          exact ⟨by simpa using this.1, this.2⟩

theorem findIdxA_some_first {p : α → Bool} {l : List α} {i : Nat} {d : α}
    (h : findIdxA p l = some i) : ∀ k, k < i → p (l.getD k d) = false := by
  induction l generalizing i with
  | nil => simp [findIdxA] at h
  | cons x t ih =>
      unfold findIdxA at h
      by_cases hx : p x
      · rw [if_pos hx] at h
        have : i = 0 := by simpa using h.symm
        subst this
        intro k hk; omega
      · rw [if_neg hx] at h
        rcases hfi : findIdxA p t with _ | m
        · rw [hfi] at h; simp at h
        · rw [hfi] at h
          have him : i = m + 1 := by simpa using h.symm
          subst him
          intro k hk
          cases k with
          | zero => exact Bool.eq_false_iff.mpr hx
          | succ k' => exact ih hfi k' (by omega)

theorem findIdxA_first {p : α → Bool} {l : List α} {i : Nat} {d : α}
    (hlen : i < l.length) (hp : p (l.getD i d) = true)
    (hfirst : ∀ k, k < i → p (l.getD k d) = false) : findIdxA p l = some i := by
  induction l generalizing i with
  | nil => simp at hlen
  | cons x t ih =>
      cases i with
      | zero =>
          unfold findIdxA
          have hp' : p x = true := hp
          rw [if_pos hp']
      | succ m =>
          unfold findIdxA
          have hx : p x = false := hfirst 0 (by omega)
          rw [if_neg (by simp [hx])]
          have := ih (i := m) (by simpa using hlen) hp
            (fun k hk => hfirst (k+1) (by omega))
          rw [this]
          rfl

theorem findIdxA_set_untouched {p : α → Bool} {l : List α} {j : Nat} {x d : α}
    (hold : p (l.getD j d) = false) (hnew : p x = false) :
    findIdxA p (l.set j x) = findIdxA p l := by
  induction l generalizing j with
  | nil => rfl
  | cons y t ih =>
      cases j with
      | zero =>
          unfold findIdxA
          have hy : p y = false := hold
          rw [List.set]
          simp only [findIdxA]
          rw [if_neg (by simp [hnew]), if_neg (by simp [hy])]
      | succ m =>
          rw [List.set]
          unfold findIdxA
          by_cases hy : p y
          · rw [if_pos hy, if_pos hy]
          · rw [if_neg hy, if_neg hy, ih (j := m) hold]

theorem revFindIdx?_none {p : α → Bool} {l : List α} (h : revFindIdx? p l = none) :
    ∀ a ∈ l, p a = false := by
  unfold revFindIdx? at h
  rcases hfi : findIdxA p l.reverse with _ | k
  · intro a ha
    exact findIdxA_none hfi a (by simpa using ha)
  · rw [hfi] at h; simp at h

theorem findIdxA_some_mem {p : α → Bool} {l : List α} {i : Nat}
    (h : findIdxA p l = some i) : ∃ a ∈ l, p a = true := by
  induction l generalizing i with
  | nil => simp [findIdxA] at h
  | cons x t ih =>
      unfold findIdxA at h
      by_cases hx : p x
      · exact ⟨x, List.mem_cons_self _ _, hx⟩
      · rw [if_neg hx] at h
        rcases hfi : findIdxA p t with _ | k
        · rw [hfi] at h; simp at h
        · rcases ih hfi with ⟨a, ha, hpa⟩
          exact ⟨a, List.mem_cons_of_mem _ ha, hpa⟩

theorem revFindIdx?_none_of_all {p : α → Bool} {l : List α}
    (h : ∀ a ∈ l, p a = false) : revFindIdx? p l = none := by
  unfold revFindIdx?
  rcases hfi : findIdxA p l.reverse with _ | k
  · rfl
  · exfalso
    rcases findIdxA_some_mem hfi with ⟨a, ha, hpa⟩
    have := h a (by simpa using ha)
    rw [this] at hpa
    exact Bool.false_ne_true hpa

theorem revFindIdx?_some {p : α → Bool} {l : List α} {j : Nat} {d : α}
    (h : revFindIdx? p l = some j) : j < l.length ∧ p (l.getD j d) = true := by
  unfold revFindIdx? at h
  rcases hfi : findIdxA p l.reverse with _ | k
  · rw [hfi] at h; simp at h
  · rw [hfi] at h
    have hj : j = l.length - 1 - k := by simpa using h.symm
    have hk := findIdxA_some (d := d) hfi
    have hklen : k < l.length := by simpa using hk.1
    have hget : l.reverse.getD k d = l.getD (l.length - 1 - k) d := by
      have hk1 : k < l.reverse.length := by simpa using hklen
      have hk2 : l.length - 1 - k < l.length := by omega
      rw [List.getD_eq_getElem?_getD, List.getD_eq_getElem?_getD,
          List.getElem?_eq_getElem hk1, List.getElem?_eq_getElem hk2]
      simp only [Option.getD_some]
      exact List.getElem_reverse ..
    subst hj
    refine ⟨by omega, ?_⟩
    rw [← hget]
    exact hk.2

theorem eraseIdx_set_same {l : List α} {i : Nat} {x : α} :
    (l.set i x).eraseIdx i = l.eraseIdx i := by
  induction l generalizing i with
  | nil => rfl
  | cons y t ih =>
      cases i with
      | zero => rfl
      | succ m => simpa [List.set, List.eraseIdx] using ih

theorem eraseSwap_perm {l : List Chunk} {i : Nat} (h : i < l.length) :
    (eraseSwap l i).Perm (l.eraseIdx i) := by
  induction l generalizing i with
  | nil => simp at h
  | cons x t ih =>
      cases i with
      | zero =>
          cases t with
          | nil => simp [eraseSwap, List.eraseIdx]
          | cons y u =>
              unfold eraseSwap
              have hlast : (x :: y :: u).getLast?.getD default = (y :: u).getLast (by simp) := by
                rw [List.getLast?_eq_getLast (x :: y :: u) (by simp)]
                simp [List.getLast]
              rw [hlast]
              simp only [List.set, List.eraseIdx]
              have hne : (y :: u) ≠ [] := by simp
              have hdrop : ((y :: u).getLast hne :: y :: u).dropLast
                  = (y :: u).getLast hne :: (y :: u).dropLast := by
                simp [List.dropLast]
              rw [hdrop]
              calc ((y :: u).getLast hne :: (y :: u).dropLast).Perm
                    ((y :: u).dropLast ++ [(y :: u).getLast hne]) :=
                      (List.perm_append_singleton _ _).symm
                _ = (y :: u) := List.dropLast_append_getLast hne
      | succ m =>
          cases t with
          | nil => simp at h
          | cons y u =>
              unfold eraseSwap
              have hlast : (x :: y :: u).getLast?.getD default
                  = (y :: u).getLast?.getD default := by
                rw [List.getLast?_eq_getLast (x :: y :: u) (by simp),
                    List.getLast?_eq_getLast (y :: u) (by simp)]
                simp [List.getLast]
              rw [hlast]
              simp only [List.set, List.eraseIdx]
              have hdrop : (x :: (y :: u).set m ((y :: u).getLast?.getD default)).dropLast
                  = x :: ((y :: u).set m ((y :: u).getLast?.getD default)).dropLast := by
                have : (y :: u).set m ((y :: u).getLast?.getD default) ≠ [] := by
                  cases m <;> simp [List.set]
                cases hss : (y :: u).set m ((y :: u).getLast?.getD default) with
                | nil => exact absurd hss this
                | cons a b => simp [List.dropLast]
              rw [hdrop]
              exact List.Perm.cons x (ih (by simpa using h))

/-! ## Slab growth (claim C3) -/

/-- Start ref of the slab that a growing `do_alloc` appends: the previous
last `ref_end`, or the baseline when there is no slab. -/
def growStart (s : State) : Nat :=
  if s.slabs = [] then s.baseline else (s.slabs.getLast?.getD default).ref_end

/-- Size of the current last slab (0 if there is none), i.e. its `ref_end`
minus the previous slab's `ref_end` (baseline for a single slab). -/
def lastSlabSpan (s : State) : Nat :=
  if s.slabs = [] then 0
  else (s.slabs.getLast?.getD default).ref_end -
    (if s.slabs.length = 1 then s.baseline
     else (s.slabs.getD (s.slabs.length - 2) default).ref_end)

/-- New slab size stated as in claim C3: the larger of `size` rounded up to
the next multiple of 256 and twice the size of the current last slab. -/
def grownSize (s : State) (size : Nat) : Nat :=
  max (((size - 1) ||| 255) + 1) (2 * lastSlabSpan s)

/-- Post state of the grow branch of `do_alloc` (lines 200-248). -/
def allocGrowState (s : State) (size : Nat) : State :=
  { s with free_space_state := .Dirty
         , slabs := s.slabs ++
             [⟨growStart s + grownSize s size, List.replicate (grownSize s size) 0⟩]
         , free_space := s.free_space ++
             (if size < grownSize s size
              then [⟨growStart s + size, grownSize s size - size⟩] else []) }

/-- Characterization of `do_alloc` when no free chunk fits: one slab of size
`grownSize` is appended and the trailing chunk (if any) is pushed. -/
theorem do_alloc_nofit (s : State) (size : Nat)
    (hstate : s.free_space_state ≠ .Invalid)
    (hnofit : ∀ c ∈ s.free_space, c.size < size) :
    do_alloc s size =
      (.ok ⟨some (.slab s.slabs.length 0), growStart s⟩, allocGrowState s size) := by
  have hrev : revFindIdx? (fun c => decide (size ≤ c.size)) s.free_space = none :=
    revFindIdx?_none_of_all (fun c hc => decide_eq_false (Nat.not_le.mpr (hnofit c hc)))
  unfold allocGrowState
  unfold do_alloc
  rw [if_neg hstate]
  dsimp only []
  rw [hrev]
  by_cases hemp : s.slabs = []
  · rw [if_pos hemp]
    dsimp only []
    have hspan : grownSize s size = ((size - 1) ||| 255) + 1 := by
      unfold grownSize lastSlabSpan
      rw [if_pos hemp]
      omega
    have hstart : growStart s = s.baseline := by unfold growStart; rw [if_pos hemp]
    have hle : size ≤ ((size - 1) ||| 255) + 1 := by
      have : size - 1 ≤ (size - 1) ||| 255 :=
        Nat.le_of_testBit (fun i h => by simp [Nat.testBit_or, h])
      omega
    rw [hspan, hstart]
    by_cases hlt : size < ((size - 1) ||| 255) + 1
    · rw [if_pos (by omega : 0 < ((size - 1) ||| 255) + 1 - size), if_pos hlt]
    · rw [if_neg (by omega : ¬ 0 < ((size - 1) ||| 255) + 1 - size), if_neg hlt]
      simp
  · rw [if_neg hemp]
    dsimp only []
    have hstart : growStart s = (s.slabs.getLast?.getD default).ref_end := by
      unfold growStart; rw [if_neg hemp]
    have hspan : lastSlabSpan s = (s.slabs.getLast?.getD default).ref_end -
        (if s.slabs.length = 1 then s.baseline
         else (s.slabs.getD (s.slabs.length - 2) default).ref_end) := by
      unfold lastSlabSpan; rw [if_neg hemp]
    have hle : size ≤ ((size - 1) ||| 255) + 1 := by
      have : size - 1 ≤ (size - 1) ||| 255 :=
        Nat.le_of_testBit (fun i h => by simp [Nat.testBit_or, h])
      omega
    have hite : ∀ a b : Nat, (if a < b then b else a) = max a b := by
      intro a b; split <;> omega
    have hmax : (if ((size - 1) ||| 255) + 1 <
          2 * ((s.slabs.getLast?.getD default).ref_end -
            (if s.slabs.length = 1 then s.baseline
             else (s.slabs.getD (s.slabs.length - 2) default).ref_end))
        then 2 * ((s.slabs.getLast?.getD default).ref_end -
            (if s.slabs.length = 1 then s.baseline
             else (s.slabs.getD (s.slabs.length - 2) default).ref_end))
        else ((size - 1) ||| 255) + 1) = grownSize s size := by
      unfold grownSize
      rw [hspan, hite]
    rw [hmax, hstart]
    by_cases hlt : size < grownSize s size
    · rw [if_pos (by omega : 0 < grownSize s size - size), if_pos hlt]
    · rw [if_neg (by omega : ¬ 0 < grownSize s size - size), if_neg hlt]
      simp

/-- Post state of the reuse branch of `do_alloc` (lines 163-198) for the
chunk at position `j`. -/
def allocFitState (s : State) (size j : Nat) : State :=
  { s with free_space_state := .Dirty
         , free_space :=
             if (s.free_space.getD j default).size - size = 0
             then eraseSwap s.free_space j
             else s.free_space.set j ⟨(s.free_space.getD j default).ref + size,
                                      (s.free_space.getD j default).size - size⟩ }

/-- Characterization of `do_alloc` when the reverse scan hits chunk `j`. -/
theorem do_alloc_fit (s : State) (size j : Nat)
    (hstate : s.free_space_state ≠ .Invalid)
    (hfi : revFindIdx? (fun c => decide (size ≤ c.size)) s.free_space = some j) :
    do_alloc s size =
      (.ok ⟨do_translate (allocFitState s size j) (s.free_space.getD j default).ref,
            (s.free_space.getD j default).ref⟩,
       allocFitState s size j) := by
  unfold do_alloc allocFitState
  rw [if_neg hstate]
  dsimp only []
  rw [hfi]

/-- Claim C3: when no chunk of `FM` can satisfy `alloc(size)` (`size > 0`,
`size % 8 = 0`, state not Invalid), exactly one new zero-initialized slab is
appended, its size is the larger of `size` rounded up to the next multiple
of 256 and twice the size of the current last slab (0 if none), its range
starts at the previous last `ref_end` (or at the baseline), the returned ref
is that start, and when `new_size > size` the trailing chunk
`{start + size, new_size - size}` is pushed onto `FM`. -/
theorem alloc_grows_single_slab (s : State) (size : Nat)
    (h0 : 0 < size) (h8 : size % 8 = 0)
    (hstate : s.free_space_state ≠ .Invalid)
    (hnofit : ∀ c ∈ s.free_space, c.size < size) :
    do_alloc s size =
      (.ok ⟨some (.slab s.slabs.length 0), growStart s⟩,
        { s with free_space_state := .Dirty
               , slabs := s.slabs ++
                   [⟨growStart s + grownSize s size, List.replicate (grownSize s size) 0⟩]
               , free_space := s.free_space ++
                   (if size < grownSize s size
                    then [⟨growStart s + size, grownSize s size - size⟩] else []) }) :=
  do_alloc_nofit s size hstate hnofit

/-! ## Invalid free-space handling (claim C5) -/

/-- Claim C5: (1) when the free-list `push_back` in `do_free` fails, the
exception is swallowed, the state becomes Invalid and nothing else changes;
(2) while Invalid, `do_alloc` fails with `InvalidFreeSpace` leaving the
state untouched; (3) while Invalid, `do_free` records nothing; (4) while
Invalid, `get_free_read_only` fails with `InvalidFreeSpace`; (5) after
`reset_free_space_tracking` an allocation succeeds again. -/
theorem invalid_free_space_behaviour :
    (∀ (s : State) (ref size : Nat),
      s.free_space_state ≠ .Invalid →
      findIdxA (fun c => decide (c.ref = ref + size))
        (if ref < s.baseline then s.free_read_only else s.free_space) = none →
      findIdxA (fun c => decide (c.ref + c.size = ref))
        (if ref < s.baseline then s.free_read_only else s.free_space) = none →
      do_free s ref size false = { s with free_space_state := .Invalid }) ∧
    (∀ (s : State) (size : Nat), s.free_space_state = .Invalid →
      do_alloc s size = (.error .InvalidFreeSpace, s)) ∧
    (∀ (s : State) (ref size : Nat) (push_ok : Bool), s.free_space_state = .Invalid →
      do_free s ref size push_ok = s) ∧
    (∀ s : State, s.free_space_state = .Invalid →
      get_free_read_only s = .error .InvalidFreeSpace) ∧
    (∀ (s : State) (size : Nat), ∃ mem s',
      do_alloc (reset_free_space_tracking s) size = (.ok mem, s')) := by
  refine ⟨?_, ?_, ?_, ?_, ?_⟩
  · intro s ref size hstate hsucc hpred
    unfold do_free
    rw [if_neg hstate]
    dsimp only []
    by_cases hro : ref < s.baseline
    · rw [if_pos hro] at hsucc hpred
      have hro' : decide (ref < s.baseline) = true := decide_eq_true hro
      rw [if_pos hro', hsucc]
      dsimp only []
      by_cases hb : findIdxA (fun sl => decide (sl.ref_end = ref)) s.slabs = none
      · rw [if_pos hb, hpred]
        dsimp only []
        rw [if_neg (by simp : ¬ (false = true))]
      · rw [if_neg hb]
        dsimp only []
        rw [if_neg (by simp : ¬ (false = true))]
    · rw [if_neg hro] at hsucc hpred
      have hro' : ¬ (decide (ref < s.baseline) = true) := by simp [hro]
      rw [if_neg hro', hsucc]
      dsimp only []
      by_cases hb : findIdxA (fun sl => decide (sl.ref_end = ref)) s.slabs = none
      · rw [if_pos hb, hpred]
        dsimp only []
        rw [if_neg (by simp : ¬ (false = true))]
      · rw [if_neg hb]
        dsimp only []
        rw [if_neg (by simp : ¬ (false = true))]
  · intro s size hstate
    unfold do_alloc
    rw [if_pos hstate]
  · intro s ref size push_ok hstate
    unfold do_free
    rw [if_pos hstate]
  · intro s hstate
    unfold get_free_read_only
    rw [if_pos hstate]
  · intro s size
    have hclean : (reset_free_space_tracking s).free_space_state = .Clean := by
      unfold reset_free_space_tracking
      by_cases h : s.free_space_state = .Clean
      · rw [if_pos h]; exact h
      · rw [if_neg h]
    have hne : (reset_free_space_tracking s).free_space_state ≠ .Invalid := by
      rw [hclean]; intro h; cases h
    unfold do_alloc
    rw [if_neg hne]
    dsimp only []
    rcases hfi : revFindIdx? (fun c => decide (size ≤ c.size))
        (reset_free_space_tracking s).free_space with _ | j
    · rw [hfi]
      exact ⟨_, _, rfl⟩
    · rw [hfi]
      exact ⟨_, _, rfl⟩

/-! ## Null `m_data` safety (claim C10) -/

/-- Claim C10: `get_committed_file_format` reads the header through `m_data`
unconditionally, so it is defined exactly when `m_data` is non-null; after
`attach_empty`, which nulls `m_data`, the read is undefined (`none`). -/
theorem get_committed_file_format_requires_data :
    (∀ s : State, (attach_empty s).data = none ∧
      get_committed_file_format (attach_empty s) = none) ∧
    (∀ s : State, get_committed_file_format s = none ↔ s.data = none) := by
  constructor
  · intro s
    exact ⟨rfl, rfl⟩
  · intro s
    unfold get_committed_file_format
    rcases s.data with _ | d <;> simp

/-! ## Slab geometry -/

theorem getD_eq_get {l : List α} {i : Nat} {d : α} (h : i < l.length) :
    l.getD i d = l.get ⟨i, h⟩ := by
  rw [List.getD_eq_getElem?_getD, List.getElem?_eq_getElem h]
  rfl

theorem getD_map {l : List α} {f : α → β} {i : Nat} {d : β} {e : α} (h : i < l.length) :
    (l.map f).getD i d = f (l.getD i e) := by
  induction l generalizing i with
  | nil => simp at h
  | cons x t ih =>
      cases i with
      | zero => rfl
      | succ k => exact ih (by simpa using h)

/-- The sequence `baseline, slabs[0].ref_end, slabs[1].ref_end, …`: slab `i`
occupies the ref range between consecutive entries. -/
def bounds (s : State) : List Nat := s.baseline :: s.slabs.map Slab.ref_end

/-- Well-formed slab vector: the bounds strictly increase, i.e. `ref_end` is
strictly increasing and above the baseline (every slab is nonempty). -/
def SlabsWf (s : State) : Prop := List.Chain' (· < ·) (bounds s)

theorem slabStart_eq_bounds {s : State} {i : Nat} (h : i ≤ s.slabs.length) :
    slabStart s i = (bounds s).getD i 0 := by
  unfold slabStart bounds
  cases i with
  | zero => rfl
  | succ k =>
      rw [if_neg (by omega)]
      have hk : k < s.slabs.length := by omega
      rw [getD_succ, getD_map (e := default) hk]
      rfl

theorem slabEnd_eq_bounds {s : State} {i : Nat} (h : i < s.slabs.length) :
    slabEnd s i = (bounds s).getD (i + 1) 0 := by
  unfold slabEnd bounds
  rw [getD_succ, getD_map (e := default) h]

theorem bounds_length {s : State} : (bounds s).length = s.slabs.length + 1 := by
  simp [bounds]

theorem bounds_mono {s : State} (hwf : SlabsWf s) {i j : Nat}
    (hij : i < j) (hj : j < (bounds s).length) :
    (bounds s).getD i 0 < (bounds s).getD j 0 := by
  have hp : (bounds s).Pairwise (· < ·) := List.chain'_iff_pairwise.mp hwf
  have hi : i < (bounds s).length := by omega
  rw [getD_eq_get hi, getD_eq_get hj]
  exact List.pairwise_iff_get.mp hp ⟨i, hi⟩ ⟨j, hj⟩ hij

theorem slabStart_lt_slabEnd {s : State} (hwf : SlabsWf s) {i : Nat}
    (h : i < s.slabs.length) : slabStart s i < slabEnd s i := by
  rw [slabStart_eq_bounds (by omega), slabEnd_eq_bounds h]
  exact bounds_mono hwf (by omega) (by rw [bounds_length]; omega)

theorem slabEnd_le_slabStart {s : State} (hwf : SlabsWf s) {i j : Nat}
    (hij : i < j) (hj : j < s.slabs.length) : slabEnd s i ≤ slabStart s j := by
  rw [slabEnd_eq_bounds (by omega), slabStart_eq_bounds (by omega)]
  rcases Nat.lt_or_ge (i + 1) j with h | h
  · exact Nat.le_of_lt (bounds_mono hwf h (by rw [bounds_length]; omega))
  · have : i + 1 = j := by omega
    rw [this]

theorem baseline_le_slabStart {s : State} (hwf : SlabsWf s) {i : Nat}
    (h : i ≤ s.slabs.length) : s.baseline ≤ slabStart s i := by
  cases i with
  | zero => exact Nat.le_refl _
  | succ k =>
      have h0 : s.baseline = (bounds s).getD 0 0 := rfl
      rw [slabStart_eq_bounds h, h0]
      exact Nat.le_of_lt (bounds_mono hwf (by omega) (by rw [bounds_length]; omega))

/-- A ref interior to two slab ranges pins the same slab (ranges are
disjoint). -/
theorem slab_point_unique {s : State} (hwf : SlabsWf s) {i j x : Nat}
    (hi : i < s.slabs.length) (hj : j < s.slabs.length)
    (h1 : slabStart s i ≤ x) (h2 : x < slabEnd s i)
    (h3 : slabStart s j ≤ x) (h4 : x < slabEnd s j) : i = j := by
  rcases Nat.lt_trichotomy i j with h | h | h
  · have := slabEnd_le_slabStart hwf h hj
    omega
  · exact h
  · have := slabEnd_le_slabStart hwf h hi
    omega

/-- A free chunk lying entirely within the ref range of slab `i`. -/
def ChunkInSlab (s : State) (c : Chunk) : Prop :=
  ∃ i, i < s.slabs.length ∧ slabStart s i ≤ c.ref ∧ c.ref + c.size ≤ slabEnd s i

/-! ## Canonical free lists -/

/-- Start of slab `i` for a standalone slab list over base `b` (the same
formula as `slabStart`). -/
def slabStartL (b : Nat) (l : List Slab) (i : Nat) : Nat :=
  if i = 0 then b else (l.getD (i-1) default).ref_end

theorem length_canonicalChunks {b : Nat} {l : List Slab} :
    (canonicalChunks b l).length = l.length := by
  induction l generalizing b with
  | nil => rfl
  | cons sl rest ih => simpa [canonicalChunks] using ih

theorem canonicalChunks_getD {l : List Slab} {b i : Nat} (h : i < l.length) :
    (canonicalChunks b l).getD i default =
      ⟨slabStartL b l i, (l.getD i default).ref_end - slabStartL b l i⟩ := by
  induction l generalizing b i with
  | nil => simp at h
  | cons sl rest ih =>
      cases i with
      | zero => rfl
      | succ k =>
          have hk : k < rest.length := by simpa using h
          show (canonicalChunks sl.ref_end rest).getD k default = _
          rw [ih hk]
          congr 1 <;>
          · unfold slabStartL
            cases k <;> rfl

theorem findIdxA_cons {p : α → Bool} {a : α} {l : List α} :
    findIdxA p (a :: l) = if p a then some 0 else (findIdxA p l).map (· + 1) := rfl

theorem findIdxA_append_none {p : α → Bool} {l1 l2 : List α}
    (h : findIdxA p l1 = none) :
    findIdxA p (l1 ++ l2) = (findIdxA p l2).map (· + l1.length) := by
  induction l1 with
  | nil =>
      rcases hfi : findIdxA p l2 with _ | k <;> simp [hfi]
  | cons x t ih =>
      rw [findIdxA_cons] at h
      by_cases hx : p x
      · rw [if_pos hx] at h
        simp at h
      · rw [if_neg hx] at h
        have ht : findIdxA p t = none := by
          rcases hfi : findIdxA p t with _ | k
          · rfl
          · rw [hfi] at h; simp at h
        show findIdxA p (x :: (t ++ l2)) = _
        rw [findIdxA_cons, if_neg hx, ih ht]
        rcases hfi : findIdxA p l2 with _ | k
        · rfl
        · simp
          omega

/-! ## Reset rebuilds the canonical free list (claim C6) -/

theorem allFreeLoop_canonical_aux :
    ∀ (l : List Slab) (b : Nat) (pre : List Chunk),
      List.Chain' (· < ·) (b :: l.map Slab.ref_end) →
      (∀ c ∈ pre, c.ref < b) →
      allFreeLoop (pre ++ canonicalChunks b l) b l = true := by
  intro l
  induction l with
  | nil => intro b pre _ _; rfl
  | cons sl rest ih =>
      intro b pre hchain hpre
      have hbe : b < sl.ref_end := by
        have := List.chain'_cons.mp hchain
        simpa using this.1
      unfold allFreeLoop
      have hfind : findIdxA (fun c => decide (c.ref = b)) (pre ++ canonicalChunks b (sl :: rest))
          = some pre.length := by
        have hnone : findIdxA (fun c => decide (c.ref = b)) pre = none := by
          rcases hf : findIdxA (fun c => decide (c.ref = b)) pre with _ | k
          · exact hf
          · exfalso
            rcases findIdxA_some_mem hf with ⟨c, hc, hpc⟩
            have := hpre c hc
            simp at hpc
            omega
        rw [findIdxA_append_none hnone]
        show (findIdxA (fun c => decide (c.ref = b))
          (⟨b, sl.ref_end - b⟩ :: canonicalChunks sl.ref_end rest)).map (· + pre.length)
            = some pre.length
        unfold findIdxA
        rw [if_pos (by simp)]
        simp
      have hget : (pre ++ canonicalChunks b (sl :: rest)).getD pre.length default
          = ⟨b, sl.ref_end - b⟩ := by
        show (pre ++ ⟨b, sl.ref_end - b⟩ :: canonicalChunks sl.ref_end rest).getD
          pre.length default = _
        exact getD_append_length
      rw [hfind]
      dsimp only []
      rw [hget]
      rw [if_pos rfl]
      have hassoc : pre ++ canonicalChunks b (sl :: rest)
          = (pre ++ [⟨b, sl.ref_end - b⟩]) ++ canonicalChunks sl.ref_end rest := by
        show pre ++ ⟨b, sl.ref_end - b⟩ :: canonicalChunks sl.ref_end rest = _
        simp
      rw [hassoc]
      refine ih sl.ref_end (pre ++ [⟨b, sl.ref_end - b⟩]) (List.chain'_cons.mp hchain).2 ?_
      intro c hc
      rcases List.mem_append.mp hc with h | h
      · exact Nat.lt_trans (hpre c h) hbe
      · have : c = ⟨b, sl.ref_end - b⟩ := by simpa using h
        rw [this]
        exact hbe

/-- Claim C6: `reset_free_space_tracking` is a no-op in the Clean state;
otherwise it empties `FR`, rebuilds `FM` with exactly one chunk per slab —
the i-th starting at slab i's start and spanning it — and sets the state to
Clean, after which `is_all_free` holds. -/
theorem reset_free_space_tracking_spec (s : State) (hwf : SlabsWf s) :
    (s.free_space_state = .Clean → reset_free_space_tracking s = s) ∧
    (s.free_space_state ≠ .Clean →
      (reset_free_space_tracking s).free_read_only = [] ∧
      (reset_free_space_tracking s).free_space_state = .Clean ∧
      (reset_free_space_tracking s).free_space.length = s.slabs.length ∧
      (∀ i, i < s.slabs.length →
        ((reset_free_space_tracking s).free_space.getD i default).ref = slabStart s i ∧
        ((reset_free_space_tracking s).free_space.getD i default).size
          = slabEnd s i - slabStart s i) ∧
      is_all_free (reset_free_space_tracking s) = true) := by
  constructor
  · intro h
    unfold reset_free_space_tracking
    rw [if_pos h]
  · intro h
    unfold reset_free_space_tracking
    rw [if_neg h]
    refine ⟨rfl, rfl, length_canonicalChunks, ?_, ?_⟩
    · intro i hi
      rw [canonicalChunks_getD hi]
      constructor
      · rfl
      · rfl
    · unfold is_all_free
      dsimp only []
      rw [if_pos length_canonicalChunks]
      have := allFreeLoop_canonical_aux s.slabs s.baseline [] hwf (by intro c hc; simp at hc)
      simpa using this

/-! ## Translation correctness (claim C7) -/

theorem grownSize_pos {s : State} {size : Nat} : 0 < grownSize s size := by
  unfold grownSize
  have h : 0 < ((size - 1) ||| 255) + 1 := Nat.succ_pos _
  omega

theorem growStart_eq_last_slabEnd {s : State} (hemp : s.slabs ≠ []) :
    growStart s = slabEnd s (s.slabs.length - 1) := by
  unfold growStart slabEnd
  rw [if_neg hemp, getLast?_getD_eq hemp]

theorem growStart_not_lt_baseline {s : State} (hwf : SlabsWf s) :
    ¬ growStart s < s.baseline := by
  by_cases hemp : s.slabs = []
  · unfold growStart
    rw [if_pos hemp]
    omega
  · rw [growStart_eq_last_slabEnd hemp]
    have hn : 0 < s.slabs.length := List.length_pos.mpr hemp
    have h1 : s.baseline ≤ slabStart s (s.slabs.length - 1) :=
      baseline_le_slabStart hwf (by omega)
    have h2 := slabStart_lt_slabEnd hwf (i := s.slabs.length - 1) (by omega)
    omega

theorem slabEnd_le_growStart {s : State} (hwf : SlabsWf s) {k : Nat}
    (hk : k < s.slabs.length) : slabEnd s k ≤ growStart s := by
  have hemp : s.slabs ≠ [] := by
    intro h; rw [h] at hk; simp at hk
  rw [growStart_eq_last_slabEnd hemp]
  rcases Nat.lt_or_ge k (s.slabs.length - 1) with h | h
  · exact Nat.le_trans (slabEnd_le_slabStart hwf h (by omega))
      (Nat.le_of_lt (slabStart_lt_slabEnd hwf (by omega)))
  · have : k = s.slabs.length - 1 := by omega
    rw [this]

theorem translate_allocGrowState (s : State) (size : Nat) (hwf : SlabsWf s) :
    do_translate (allocGrowState s size) (growStart s)
      = some (.slab s.slabs.length 0) := by
  have hslabs : (allocGrowState s size).slabs
      = s.slabs ++ [⟨growStart s + grownSize s size, List.replicate (grownSize s size) 0⟩] :=
    rfl
  have hbase : (allocGrowState s size).baseline = s.baseline := rfl
  have hstart : slabStart (allocGrowState s size) s.slabs.length = growStart s := by
    unfold slabStart
    by_cases hemp : s.slabs = []
    · rw [if_pos (by rw [hemp]; rfl), hbase]
      unfold growStart
      rw [if_pos hemp]
    · have hn : 0 < s.slabs.length := List.length_pos.mpr hemp
      rw [if_neg (by omega), hslabs,
          getD_append_left (by omega : s.slabs.length - 1 < s.slabs.length)]
      rw [growStart_eq_last_slabEnd hemp]
      rfl
  have hfind : findIdxA (fun sl => decide (growStart s < sl.ref_end))
      (allocGrowState s size).slabs = some s.slabs.length := by
    rw [hslabs]
    refine findIdxA_first (d := default) (by simp) ?_ ?_
    · rw [getD_append_length]
      have := @grownSize_pos s size
      simp only []
      exact decide_eq_true (by omega)
    · intro k hk
      rw [getD_append_left hk]
      have := slabEnd_le_growStart hwf hk
      unfold slabEnd at this
      exact decide_eq_false (by omega)
  unfold do_translate
  rw [if_neg (by rw [hbase]; exact growStart_not_lt_baseline hwf), hfind]
  dsimp only []
  rw [hstart]
  simp

/-- Claim C7: `translate(ref)` returns `m_data + ref` for refs below the
baseline and otherwise the address inside the unique slab containing `ref`
at offset `ref` minus the slab's start; and every successful `alloc` returns
a `MemRef` whose address is the translation of its ref. -/
theorem translate_spec :
    (∀ (s : State) (ref : Nat), ref < s.baseline →
      do_translate s ref = some (.file ref)) ∧
    (∀ (s : State) (ref i : Nat), SlabsWf s → i < s.slabs.length →
      slabStart s i ≤ ref → ref < slabEnd s i →
      do_translate s ref = some (.slab i (ref - slabStart s i))) ∧
    (∀ (s : State) (size : Nat) (mem : MemRef) (s' : State), SlabsWf s →
      do_alloc s size = (.ok mem, s') → mem.addr = do_translate s' mem.ref) := by
  refine ⟨?_, ?_, ?_⟩
  · intro s ref h
    unfold do_translate
    rw [if_pos h]
  · intro s ref i hwf hi hlo hhi
    unfold do_translate
    have hbase : s.baseline ≤ ref := Nat.le_trans (baseline_le_slabStart hwf (by omega)) hlo
    rw [if_neg (by omega)]
    have hfind : findIdxA (fun sl => decide (ref < sl.ref_end)) s.slabs = some i := by
      refine findIdxA_first (d := default) hi (decide_eq_true hhi) ?_
      intro k hk
      have hle : slabEnd s k ≤ slabStart s i := slabEnd_le_slabStart hwf hk hi
      have : ¬ ref < (s.slabs.getD k default).ref_end := by
        show ¬ ref < slabEnd s k
        omega
      simpa using this
    rw [hfind]
  · intro s size mem s' hwf halloc
    by_cases hstate : s.free_space_state = .Invalid
    · unfold do_alloc at halloc
      rw [if_pos hstate] at halloc
      have := congrArg Prod.fst halloc
      simp at this
    · rcases hfi : revFindIdx? (fun c => decide (size ≤ c.size)) s.free_space with _ | j
      · have hnofit : ∀ c ∈ s.free_space, c.size < size := by
          intro c hc
          have := revFindIdx?_none hfi c hc
          have := of_decide_eq_false this
          omega
        rw [do_alloc_nofit s size hstate hnofit] at halloc
        have hA := congrArg Prod.fst halloc
        have hB := congrArg Prod.snd halloc
        simp only [] at hA hB
        have hmem : (⟨some (.slab s.slabs.length 0), growStart s⟩ : MemRef) = mem := by
          simpa using hA
        subst hmem
        subst hB
        show some (.slab s.slabs.length 0) = do_translate (allocGrowState s size) (growStart s)
        exact (translate_allocGrowState s size hwf).symm
      · rw [do_alloc_fit s size j hstate hfi] at halloc
        have hA := congrArg Prod.fst halloc
        have hB := congrArg Prod.snd halloc
        simp only [] at hA hB
        have hmem : (⟨do_translate (allocFitState s size j) (s.free_space.getD j default).ref,
            (s.free_space.getD j default).ref⟩ : MemRef) = mem := by
          simpa using hA
        subst hmem
        subst hB
        rfl

/-! ## Concrete fixtures for witnesses -/

/-- Executable strict-increase check on a bounds list. -/
def boundsChainB : List Nat → Bool
  | [] => true
  | [_] => true
  | a :: b :: t => decide (a < b) && boundsChainB (b :: t)

theorem boundsChainB_iff : ∀ l : List Nat, boundsChainB l = true ↔ List.Chain' (· < ·) l := by
  intro l
  induction l with
  | nil => simp [boundsChainB]
  | cons a t ih =>
      cases t with
      | nil => simp [boundsChainB]
      | cons b u =>
          rw [List.chain'_cons]
          unfold boundsChainB
          rw [Bool.and_eq_true]
          constructor
          · rintro ⟨h1, h2⟩
            exact ⟨of_decide_eq_true h1, ih.mp h2⟩
          · rintro ⟨h1, h2⟩
            exact ⟨decide_eq_true h1, ih.mpr h2⟩

instance (s : State) : Decidable (SlabsWf s) :=
  decidable_of_iff (boundsChainB (bounds s) = true) (boundsChainB_iff (bounds s))

instance (s : State) (c : Chunk) : Decidable (ChunkInSlab s c) :=
  inferInstanceAs (Decidable (∃ i, i < s.slabs.length ∧
    slabStart s i ≤ c.ref ∧ c.ref + c.size ≤ slabEnd s i))

/-- A freshly constructed, detached allocator. -/
def exInit : State := ⟨0, none, [], [], [], .Dirty, .attach_None, false, 0⟩

/-- After `attach_empty`: baseline 24, no slabs. -/
def exEmpty : State := attach_empty exInit

/-- An allocator whose free-space tracking was lost. -/
def exInvalid : State := { exEmpty with free_space_state := .Invalid }

/-- After one allocation of 8 bytes from `exEmpty`: one slab `[24, 280)`,
free list `[{32, 248}]`, state Dirty. -/
def exOneSlab : State := (do_alloc exEmpty 8).2

theorem alloc_grows_single_slab_witness :
    ((0 : Nat) < 8 ∧ (8 : Nat) % 8 = 0) ∧
    do_alloc exEmpty 8 =
      (.ok ⟨some (.slab exEmpty.slabs.length 0), growStart exEmpty⟩,
        { exEmpty with
            free_space_state := .Dirty
            slabs := exEmpty.slabs ++
              [⟨growStart exEmpty + grownSize exEmpty 8, List.replicate (grownSize exEmpty 8) 0⟩]
            free_space := exEmpty.free_space ++
              (if 8 < grownSize exEmpty 8
               then [⟨growStart exEmpty + 8, grownSize exEmpty 8 - 8⟩] else []) }) :=
  ⟨⟨by decide, by decide⟩,
   alloc_grows_single_slab exEmpty 8 (by decide) (by decide) (by decide) (by decide)⟩

theorem invalid_free_space_behaviour_witness :
    do_free exEmpty 100 8 false = { exEmpty with free_space_state := .Invalid } ∧
    do_alloc exInvalid 8 = (.error .InvalidFreeSpace, exInvalid) ∧
    do_free exInvalid 24 8 true = exInvalid ∧
    get_free_read_only exInvalid = .error .InvalidFreeSpace ∧
    (do_alloc (reset_free_space_tracking exInvalid) 8).1.isOk = true := by
  refine ⟨invalid_free_space_behaviour.1 exEmpty 100 8 (by decide) (by decide) (by decide),
          invalid_free_space_behaviour.2.1 exInvalid 8 (by decide),
          invalid_free_space_behaviour.2.2.1 exInvalid 24 8 true (by decide),
          invalid_free_space_behaviour.2.2.2.1 exInvalid (by decide), ?_⟩
  rcases invalid_free_space_behaviour.2.2.2.2 exInvalid 8 with ⟨mem, s', h⟩
  rw [h]
  rfl

theorem reset_free_space_tracking_spec_witness :
    (reset_free_space_tracking exOneSlab).free_read_only = [] ∧
    (reset_free_space_tracking exOneSlab).free_space_state = .Clean ∧
    (reset_free_space_tracking exOneSlab).free_space.length = exOneSlab.slabs.length ∧
    is_all_free (reset_free_space_tracking exOneSlab) = true :=
  ⟨((reset_free_space_tracking_spec exOneSlab (by decide)).2 (by decide)).1,
   ((reset_free_space_tracking_spec exOneSlab (by decide)).2 (by decide)).2.1,
   ((reset_free_space_tracking_spec exOneSlab (by decide)).2 (by decide)).2.2.1,
   ((reset_free_space_tracking_spec exOneSlab (by decide)).2 (by decide)).2.2.2.2⟩

theorem translate_spec_witness :
    do_translate exOneSlab 10 = some (.file 10) ∧
    do_translate exOneSlab 32 = some (.slab 0 (32 - slabStart exOneSlab 0)) ∧
    (⟨some (.slab 0 8), 32⟩ : MemRef).addr = do_translate (do_alloc exOneSlab 16).2 32 :=
  ⟨translate_spec.1 exOneSlab 10 (by decide),
   translate_spec.2.1 exOneSlab 32 0 (by decide) (by decide) (by decide) (by decide),
   translate_spec.2.2 exOneSlab 16 ⟨some (.slab 0 8), 32⟩ (do_alloc exOneSlab 16).2
     (by decide) (by rfl)⟩

/-! ## Coalescing on free (claim C4) -/

/-- Claim C4: freeing a mutable block (state Dirty) whose target list holds a
successor chunk starting exactly at `ref + size` (no slab boundary there) and
a predecessor chunk ending exactly at `ref` (no slab boundary there) replaces
the two chunks by one spanning predecessor + block + successor, and the list
shrinks by one chunk.  The merged list is stated up to permutation because
the source erases the successor by move-last-over. -/
theorem free_coalesces_both (s : State) (ref size js jp : Nat) (push_ok : Bool)
    (hst : s.free_space_state = .Dirty)
    (hro : s.baseline ≤ ref)
    (hsz : 0 < size)
    (hjs : findIdxA (fun c => decide (c.ref = ref + size)) s.free_space = some js)
    (hbs : findIdxA (fun sl => decide (sl.ref_end = ref + size)) s.slabs = none)
    (hjp : findIdxA (fun c => decide (c.ref + c.size = ref)) s.free_space = some jp)
    (hbp : findIdxA (fun sl => decide (sl.ref_end = ref)) s.slabs = none) :
    ((do_free s ref size push_ok).free_space).Perm
      ((s.free_space.set jp
        ⟨(s.free_space.getD jp default).ref,
         (s.free_space.getD jp default).size +
           ((s.free_space.getD js default).size + size)⟩).eraseIdx js) ∧
    (do_free s ref size push_ok).free_space.length + 1 = s.free_space.length := by
  have hjs' := findIdxA_some (d := default) hjs
  have hjp' := findIdxA_some (d := default) hjp
  have hcref : (s.free_space.getD js default).ref = ref + size := of_decide_eq_true hjs'.2
  have hpsum : (s.free_space.getD jp default).ref + (s.free_space.getD jp default).size
      = ref := of_decide_eq_true hjp'.2
  have hne : jp ≠ js := by
    intro h
    rw [h, hcref] at hpsum
    omega
  have hstate : ¬ (s.free_space_state = .Invalid) := by
    rw [hst]; intro hc; cases hc
  have hrof : decide (ref < s.baseline) = false := decide_eq_false (by omega)
  have hfs0 : (if decide (ref < s.baseline) = true then s.free_read_only else s.free_space)
      = s.free_space := by
    rw [hrof]
    exact if_neg (by simp)
  have hpred1 : findIdxA (fun c => decide (c.ref + c.size = ref))
      (s.free_space.set js ⟨ref, (s.free_space.getD js default).size + size⟩) = some jp := by
    have hold : decide ((s.free_space.getD js default).ref
        + (s.free_space.getD js default).size = ref) = false :=
      decide_eq_false (by rw [hcref]; omega)
    have hnew : decide (ref + ((s.free_space.getD js default).size + size) = ref) = false :=
      decide_eq_false (by omega)
    rw [@findIdxA_set_untouched Chunk (fun c => decide (c.ref + c.size = ref)) s.free_space js
      ⟨ref, (s.free_space.getD js default).size + size⟩ default hold hnew, hjp]
  have hg1 : (s.free_space.set js ⟨ref, (s.free_space.getD js default).size + size⟩).getD
      jp default = s.free_space.getD jp default := getD_set_ne (Ne.symm hne)
  have hg2 : (s.free_space.set js ⟨ref, (s.free_space.getD js default).size + size⟩).getD
      js default = ⟨ref, (s.free_space.getD js default).size + size⟩ :=
    getD_set_self hjs'.1
  have hkey : do_free s ref size push_ok
      = setFreeList s (decide (ref < s.baseline))
          (eraseSwap
            ((s.free_space.set js ⟨ref, (s.free_space.getD js default).size + size⟩).set jp
              ⟨(s.free_space.getD jp default).ref,
               (s.free_space.getD jp default).size +
                 ((s.free_space.getD js default).size + size)⟩) js) := by
    unfold do_free
    rw [if_neg hstate]
    dsimp only []
    rw [hfs0, hjs]
    dsimp only []
    rw [hbs]
    rw [if_pos rfl]
    dsimp only []
    rw [hbp]
    rw [if_pos rfl, hpred1]
    dsimp only []
    rw [hg1, hg2]
  have hfs : (do_free s ref size push_ok).free_space
      = eraseSwap
          ((s.free_space.set js ⟨ref, (s.free_space.getD js default).size + size⟩).set jp
            ⟨(s.free_space.getD jp default).ref,
             (s.free_space.getD jp default).size +
               ((s.free_space.getD js default).size + size)⟩) js := by
    rw [hkey]
    unfold setFreeList
    rw [hrof]
    rw [if_neg (by simp)]
  have hlen1 : js < ((s.free_space.set js
      ⟨ref, (s.free_space.getD js default).size + size⟩).set jp
      ⟨(s.free_space.getD jp default).ref,
       (s.free_space.getD jp default).size +
         ((s.free_space.getD js default).size + size)⟩).length := by
    simp
    exact hjs'.1
  have hperm : ((do_free s ref size push_ok).free_space).Perm
      ((s.free_space.set jp
        ⟨(s.free_space.getD jp default).ref,
         (s.free_space.getD jp default).size +
           ((s.free_space.getD js default).size + size)⟩).eraseIdx js) := by
    rw [hfs]
    have hswap := List.set_comm
      (⟨ref, (s.free_space.getD js default).size + size⟩ : Chunk)
      (⟨(s.free_space.getD jp default).ref,
        (s.free_space.getD jp default).size +
          ((s.free_space.getD js default).size + size)⟩ : Chunk)
      s.free_space (Ne.symm hne)
    calc (eraseSwap
            ((s.free_space.set js ⟨ref, (s.free_space.getD js default).size + size⟩).set jp
              ⟨(s.free_space.getD jp default).ref,
               (s.free_space.getD jp default).size +
                 ((s.free_space.getD js default).size + size)⟩) js).Perm
          (((s.free_space.set js ⟨ref, (s.free_space.getD js default).size + size⟩).set jp
            ⟨(s.free_space.getD jp default).ref,
             (s.free_space.getD jp default).size +
               ((s.free_space.getD js default).size + size)⟩).eraseIdx js) :=
            eraseSwap_perm hlen1
      _ = (((s.free_space.set jp
              ⟨(s.free_space.getD jp default).ref,
               (s.free_space.getD jp default).size +
                 ((s.free_space.getD js default).size + size)⟩).set js
              ⟨ref, (s.free_space.getD js default).size + size⟩).eraseIdx js) := by
            rw [hswap]
      _ = ((s.free_space.set jp
            ⟨(s.free_space.getD jp default).ref,
             (s.free_space.getD jp default).size +
               ((s.free_space.getD js default).size + size)⟩).eraseIdx js) :=
            eraseIdx_set_same
  refine ⟨hperm, ?_⟩
  have hlen2 : js < (s.free_space.set jp
      ⟨(s.free_space.getD jp default).ref,
       (s.free_space.getD jp default).size +
         ((s.free_space.getD js default).size + size)⟩).length := by
    simp
    exact hjs'.1
  have := List.Perm.length_eq hperm
  have hdec := List.length_eraseIdx_add_one hlen2
  rw [List.length_set] at hdec
  omega

/-- The state of the coalesce scenario just before the last free: three
8-byte blocks were allocated from a fresh slab and then the middle and left
ones freed, leaving `FM = [{48, 232}, {24, 16}]`. -/
def exCoalesce : State :=
  do_free (do_free (do_alloc (do_alloc (do_alloc exEmpty 8).2 8).2 8).2 32 8 true) 24 8 true

theorem free_coalesces_both_witness :
    ((do_free exCoalesce 40 8 true).free_space).Perm
      ((exCoalesce.free_space.set 1
        ⟨(exCoalesce.free_space.getD 1 default).ref,
         (exCoalesce.free_space.getD 1 default).size +
           ((exCoalesce.free_space.getD 0 default).size + 8)⟩).eraseIdx 0) ∧
    (do_free exCoalesce 40 8 true).free_space.length + 1 = exCoalesce.free_space.length ∧
    (do_free exCoalesce 40 8 true).free_space = [⟨24, 256⟩] :=
  ⟨(free_coalesces_both exCoalesce 40 8 0 1 true (by decide) (by decide) (by decide)
      (by decide) (by decide) (by decide) (by decide)).1,
   (free_coalesces_both exCoalesce 40 8 0 1 true (by decide) (by decide) (by decide)
      (by decide) (by decide) (by decide) (by decide)).2,
   by decide⟩

/-! ## Byte-level lemmas for the header rewrite -/

theorem length_writeBytesLE : ∀ (n : Nat) (d : List Nat) (i v : Nat),
    (writeBytesLE d i v n).length = d.length := by
  intro n
  induction n with
  | zero => intro d i v; rfl
  | succ m ih =>
      intro d i v
      show (writeBytesLE (d.set i (v % 256)) (i+1) (v / 256) m).length = _
      rw [ih, List.length_set]

theorem byteAt_writeBytesLE_lt : ∀ (n : Nat) (d : List Nat) (i v j : Nat), j < i →
    byteAt (writeBytesLE d i v n) j = byteAt d j := by
  intro n
  induction n with
  | zero => intro d i v j _; rfl
  | succ m ih =>
      intro d i v j hj
      show byteAt (writeBytesLE (d.set i (v % 256)) (i+1) (v / 256) m) j = _
      rw [ih _ _ _ _ (by omega)]
      exact getD_set_ne (by omega)

theorem byteAt_writeBytesLE_ge : ∀ (n : Nat) (d : List Nat) (i v j : Nat), i + n ≤ j →
    byteAt (writeBytesLE d i v n) j = byteAt d j := by
  intro n
  induction n with
  | zero => intro d i v j _; rfl
  | succ m ih =>
      intro d i v j hj
      show byteAt (writeBytesLE (d.set i (v % 256)) (i+1) (v / 256) m) j = _
      rw [ih _ _ _ _ (by omega)]
      exact getD_set_ne (by omega)

theorem readBytesLE_set_outside : ∀ (n : Nat) (d : List Nat) (i j x : Nat),
    (j < i ∨ i + n ≤ j) → readBytesLE (d.set j x) i n = readBytesLE d i n := by
  intro n
  induction n with
  | zero => intro d i j x _; rfl
  | succ m ih =>
      intro d i j x hj
      show byteAt (d.set j x) i + 256 * readBytesLE (d.set j x) (i+1) m = _
      rw [ih _ _ _ _ (by omega), byteAt_set_ne (by omega)]
      rfl

theorem readBytesLE_writeBytesLE_outside : ∀ (n : Nat) (d : List Nat) (i j v m : Nat),
    (j + m ≤ i ∨ i + n ≤ j) →
    readBytesLE (writeBytesLE d j v m) i n = readBytesLE d i n := by
  intro n
  induction n with
  | zero => intro d i j v m _; rfl
  | succ k ih =>
      intro d i j v m hj
      show byteAt (writeBytesLE d j v m) i + 256 * readBytesLE (writeBytesLE d j v m) (i+1) k
          = byteAt d i + 256 * readBytesLE d (i+1) k
      rw [ih _ _ _ _ _ (by omega)]
      rcases hj with hj | hj
      · rw [byteAt_writeBytesLE_ge _ _ _ _ _ (by omega)]
      · rw [byteAt_writeBytesLE_lt _ _ _ _ _ (by omega)]

theorem readBytesLE_writeBytesLE : ∀ (n : Nat) (d : List Nat) (i v : Nat),
    i + n ≤ d.length →
    readBytesLE (writeBytesLE d i v n) i n = v % 256 ^ n := by
  intro n
  induction n with
  | zero =>
      intro d i v _
      show (0 : Nat) = v % 256 ^ 0
      rw [pow_zero, Nat.mod_one]
  | succ m ih =>
      intro d i v hlen
      show byteAt (writeBytesLE (d.set i (v % 256)) (i+1) (v / 256) m) i
          + 256 * readBytesLE (writeBytesLE (d.set i (v % 256)) (i+1) (v / 256) m) (i+1) m
          = v % 256 ^ (m + 1)
      rw [byteAt_writeBytesLE_lt _ _ _ _ _ (by omega),
          byteAt_set_self (by omega),
          ih _ _ _ (by rw [List.length_set]; omega)]
      have hpow : 256 ^ (m + 1) = 256 * 256 ^ m := by
        rw [pow_succ, Nat.mul_comm]
      rw [hpow, Nat.mod_mul]

theorem byteAt_lt_256 {d : List Nat} {i : Nat} (h : ∀ b ∈ d, b < 256) :
    byteAt d i < 256 := by
  unfold byteAt
  by_cases hi : i < d.length
  · exact h _ (getD_mem hi)
  · rw [List.getD_eq_default _ _ (by omega)]
    omega

theorem readBytesLE_lt : ∀ (n : Nat) (d : List Nat) (i : Nat), (∀ b ∈ d, b < 256) →
    readBytesLE d i n < 256 ^ n := by
  intro n
  induction n with
  | zero => intro d i _; simp [readBytesLE]
  | succ m ih =>
      intro d i h
      show byteAt d i + 256 * readBytesLE d (i+1) m < 256 ^ (m + 1)
      have h1 := byteAt_lt_256 (i := i) h
      have h2 := ih d (i+1) h
      have hpow : 256 ^ (m + 1) = 256 * 256 ^ m := by
        rw [pow_succ, Nat.mul_comm]
      omega

/-! ## Streaming-form conversion (claim C8) -/

/-- What a successful streaming-form validation implies about the raw
buffer: extraction of the conditions checked along the streaming path of
`validate_buffer`. -/
theorem validate_streaming_elim {lib cookie : Nat} {d : List Nat} {sh : Bool} {r : Nat}
    (hval : validate_buffer lib cookie d sh = .ok (r, true)) :
    ¬ (d.length < 24 ∨ d.length % 8 ≠ 0) ∧
    (byteAt d 16 = 84 ∧ byteAt d 17 = 45 ∧ byteAt d 18 = 68 ∧ byteAt d 19 = 66) ∧
    byteAt d 23 % 2 = 0 ∧ u64At d 0 = sentinel ∧
    ¬ d.length < 40 ∧ u64At d (d.length - 8) = cookie ∧
    r = u64At d (d.length - 16) ∧ r % 8 = 0 ∧ ¬ r ≥ d.length := by
  unfold validate_buffer at hval
  dsimp only [] at hval
  by_cases h1 : d.length < 24 ∨ d.length % 8 ≠ 0
  · rw [if_pos h1] at hval
    simp at hval
  rw [if_neg h1] at hval
  by_cases h2 : byteAt d 16 = 84 ∧ byteAt d 17 = 45 ∧ byteAt d 18 = 68 ∧ byteAt d 19 = 66
  case neg =>
    rw [if_pos h2] at hval
    simp at hval
  rw [if_neg (not_not_intro h2)] at hval
  by_cases h3 : (if byteAt d (16 + 4 + byteAt d (16 + 7) % 2) = 2 ∧ lib = 3 ∧ sh = true
      then false
      else decide (byteAt d (16 + 4 + byteAt d (16 + 7) % 2) ≠ lib)) = true
  · rw [if_pos h3] at hval
    simp at hval
  rw [if_neg h3] at hval
  by_cases hs : byteAt d (16 + 7) % 2 = 0
      ∧ u64At d (8 * (byteAt d (16 + 7) % 2)) = sentinel
  · rw [if_pos hs] at hval
    by_cases hs1 : d.length < 24 + 16
    · rw [if_pos hs1] at hval
      simp at hval
    rw [if_neg hs1] at hval
    by_cases hs2 : u64At d (d.length - 8) ≠ cookie
    · rw [if_pos hs2] at hval
      simp at hval
    rw [if_neg hs2] at hval
    dsimp only [] at hval
    by_cases hs3 : u64At d (d.length - 16) % 8 ≠ 0
    · rw [if_pos hs3] at hval
      simp at hval
    rw [if_neg hs3] at hval
    by_cases hs4 : u64At d (d.length - 16) ≥ d.length
    · rw [if_pos hs4] at hval
      simp at hval
    rw [if_neg hs4] at hval
    simp only [Except.ok.injEq, Prod.mk.injEq, and_true] at hval
    have hsent : u64At d 0 = sentinel := by
      have h0 := hs.2
      rw [hs.1] at h0
      simpa using h0
    exact ⟨h1, h2, hs.1, hsent, hs1, not_not.mp hs2, hval.symm,
           by rw [hval] at hs3; omega, by rw [← hval]; exact hs4⟩
  · rw [if_neg hs] at hval
    dsimp only [] at hval
    by_cases ht1 : u64At d (8 * (byteAt d (16 + 7) % 2)) % 8 ≠ 0
    · rw [if_pos ht1] at hval
      simp at hval
    rw [if_neg ht1] at hval
    by_cases ht2 : u64At d (8 * (byteAt d (16 + 7) % 2)) ≥ d.length
    · rw [if_pos ht2] at hval
      simp at hval
    rw [if_neg ht2] at hval
    simp at hval

/-- Claim C8 (amended): running `do_prepare_for_update` on a buffer that
validated as a streaming-form file — with the additional hypothesis, forced
by the counterexample, that the inactive format byte `F[1]` holds the
library format — leaves `T[1]` equal to the former footer `top_ref`, sets
the select bit while preserving the server-sync bit, clears the streaming
flag, and makes the buffer re-validate to the same top ref (now
non-streaming).  The hypotheses `byteAt d 23 = 0` and `u64At d 8 = 0` are
the function's own `REALM_ASSERT`s on the streaming header template. -/
theorem prepare_for_update_spec (lib cookie : Nat) (s : State) (d : List Nat)
    (sh : Bool) (r : Nat)
    (hb : s.baseline = d.length)
    (hbytes : ∀ b ∈ d, b < 256)
    (hval : validate_buffer lib cookie d sh = .ok (r, true))
    (hflags : byteAt d 23 = 0)
    (hT1 : u64At d 8 = 0)
    (hF1 : byteAt d 21 = lib) :
    u64At (do_prepare_for_update s d).1 8 = r ∧
    byteAt (do_prepare_for_update s d).1 23 % 2 = 1 ∧
    byteAt (do_prepare_for_update s d).1 23 / 2 % 2 = byteAt d 23 / 2 % 2 ∧
    (do_prepare_for_update s d).2.file_on_streaming_form = false ∧
    validate_buffer lib cookie (do_prepare_for_update s d).1 sh = .ok (r, false) := by
  obtain ⟨hsz, hmagic, hsel, hsent, hlen40, hcook, hreq, hr8, hrlt⟩ :=
    validate_streaming_elim hval
  have hlen : 40 ≤ d.length := by omega
  have hfoot : s.baseline - 16 = d.length - 16 := by rw [hb]
  -- the footer top ref that gets copied
  have hrlt2 : r < 2 ^ 64 := by
    rw [hreq]
    have := readBytesLE_lt 8 d (d.length - 16) hbytes
    have hp : (256 : Nat) ^ 8 = 2 ^ 64 := by norm_num
    unfold u64At
    omega
  -- the two buffer updates
  have hd1len : (writeU64 d 8 (u64At d (s.baseline - 16))).length = d.length :=
    length_writeBytesLE 8 d 8 _
  have hd1_23 : byteAt (writeU64 d 8 (u64At d (s.baseline - 16))) 23 = byteAt d 23 :=
    byteAt_writeBytesLE_ge 8 d 8 _ 23 (by omega)
  have hd2 : (do_prepare_for_update s d).1
      = (writeU64 d 8 (u64At d (s.baseline - 16))).set 23
          (byteAt d 23 ||| 1) := by
    unfold do_prepare_for_update
    dsimp only []
    rw [hd1_23]
  have hd2len : (do_prepare_for_update s d).1.length = d.length := by
    rw [hd2, List.length_set, hd1len]
  -- T[1] of the result
  have hT1' : u64At (do_prepare_for_update s d).1 8 = r := by
    rw [hd2]
    unfold u64At
    rw [readBytesLE_set_outside 8 _ 8 23 _ (by omega)]
    show readBytesLE (writeBytesLE d 8 (u64At d (s.baseline - 16)) 8) 8 8 = r
    rw [readBytesLE_writeBytesLE 8 d 8 _ (by omega)]
    rw [hfoot, ← hreq]
    have hp : (256 : Nat) ^ 8 = 2 ^ 64 := by norm_num
    rw [hp]
    exact Nat.mod_eq_of_lt hrlt2
  -- flags byte of the result
  have hflags' : byteAt (do_prepare_for_update s d).1 23 = 1 := by
    rw [hd2, byteAt_set_self (by rw [hd1len]; omega), hflags]
    decide
  -- untouched bytes
  have huntouched : ∀ j, j < 8 ∨ (16 ≤ j ∧ j ≠ 23) →
      byteAt (do_prepare_for_update s d).1 j = byteAt d j := by
    intro j hj
    rw [hd2, byteAt_set_ne (by omega)]
    rcases hj with hj | hj
    · exact byteAt_writeBytesLE_lt 8 d 8 _ j (by omega)
    · exact byteAt_writeBytesLE_ge 8 d 8 _ j (by omega)
  -- assemble the five conclusions
  refine ⟨hT1', by rw [hflags'], by rw [hflags', hflags], rfl, ?_⟩
  have h16 := huntouched 16 (Or.inr (by omega))
  have h17 := huntouched 17 (Or.inr (by omega))
  have h18 := huntouched 18 (Or.inr (by omega))
  have h19 := huntouched 19 (Or.inr (by omega))
  have h21 := huntouched 21 (Or.inr (by omega))
  unfold validate_buffer
  rw [hd2len, if_neg hsz, h16, h17, h18, h19, if_neg (not_not_intro hmagic)]
  have e23 : (16 + 7 : Nat) = 23 := rfl
  rw [e23, hflags']
  dsimp only []
  have e2021 : (16 + 4 + 1 % 2 : Nat) = 21 := by norm_num
  rw [e2021, h21, hF1]
  have hbad : (if lib = 2 ∧ lib = 3 ∧ sh = true then false else decide (lib ≠ lib))
      = false := by
    split
    · rfl
    · simp
  rw [hbad, if_neg (by simp)]
  have e8 : (8 * (1 % 2) : Nat) = 8 := by norm_num
  rw [e8, hT1']
  rw [if_neg (by simp : ¬ ((1 % 2 : Nat) = 0 ∧ r = sentinel))]
  dsimp only []
  rw [if_neg (by omega : ¬ r % 8 ≠ 0), if_neg (by omega : ¬ r ≥ d.length)]

instance {ε α : Type} [DecidableEq ε] [DecidableEq α] : DecidableEq (Except ε α) :=
  fun a b =>
    match a, b with
    | .error e, .error f =>
        if h : e = f then isTrue (by rw [h]) else isFalse (fun hc => h (by cases hc; rfl))
    | .error _, .ok _ => isFalse (fun hc => by cases hc)
    | .ok _, .error _ => isFalse (fun hc => by cases hc)
    | .ok x, .ok y =>
        if h : x = y then isTrue (by rw [h]) else isFalse (fun hc => h (by cases hc; rfl))

/-- A 40-byte streaming-form file whose inactive format byte `F[1]` is NOT
the library format (here 0 with `library_file_format = 3`): header with the
sentinel in `T[0]`, magic, `F = [3, 0]`, flags 0, then a footer with
`top_ref = 32` and magic cookie 42. -/
def c8badbuf : List Nat :=
  List.replicate 8 255 ++ List.replicate 8 0 ++ [84, 45, 68, 66] ++ [3, 0, 0, 0] ++
    ([32, 0, 0, 0, 0, 0, 0, 0] ++ [42, 0, 0, 0, 0, 0, 0, 0])

/-- Allocator attached (baseline 40) to `c8badbuf` in streaming form. -/
def c8bad : State :=
  ⟨40, some c8badbuf, [], [], [], .Clean, .attach_UnsharedFile, true, 3⟩

/-- Counterexample to claim C8 as stated: `c8badbuf` satisfies every
hypothesis the claim lists (T[0] is the sentinel, the select bit is 0, the
footer magic cookie is valid — indeed the whole buffer validates as a
streaming file with top ref 32), and after `do_prepare_for_update` the
header effects all hold, yet re-validating the resulting file does NOT
yield the top ref: it fails with the bad-format error, because the now
selected format slot `F[1]` does not hold the library format. -/
theorem prepare_for_update_counterexample :
    u64At c8badbuf 0 = sentinel ∧
    byteAt c8badbuf 23 % 2 = 0 ∧
    u64At c8badbuf (c8badbuf.length - 8) = 42 ∧
    validate_buffer 3 42 c8badbuf false = .ok (32, true) ∧
    u64At (do_prepare_for_update c8bad c8badbuf).1 8 = 32 ∧
    byteAt (do_prepare_for_update c8bad c8badbuf).1 23 % 2 = 1 ∧
    (do_prepare_for_update c8bad c8badbuf).2.file_on_streaming_form = false ∧
    validate_buffer 3 42 (do_prepare_for_update c8bad c8badbuf).1 false
      = .error .BadFormat := by
  decide

/-- The same streaming file with `F[1] = 3`, satisfying the amended claim. -/
def c8goodbuf : List Nat :=
  List.replicate 8 255 ++ List.replicate 8 0 ++ [84, 45, 68, 66] ++ [3, 3, 0, 0] ++
    ([32, 0, 0, 0, 0, 0, 0, 0] ++ [42, 0, 0, 0, 0, 0, 0, 0])

/-- Allocator attached (baseline 40) to `c8goodbuf` in streaming form. -/
def c8good : State :=
  ⟨40, some c8goodbuf, [], [], [], .Clean, .attach_UnsharedFile, true, 3⟩

theorem prepare_for_update_spec_witness :
    u64At (do_prepare_for_update c8good c8goodbuf).1 8 = 32 ∧
    byteAt (do_prepare_for_update c8good c8goodbuf).1 23 % 2 = 1 ∧
    byteAt (do_prepare_for_update c8good c8goodbuf).1 23 / 2 % 2
      = byteAt c8goodbuf 23 / 2 % 2 ∧
    (do_prepare_for_update c8good c8goodbuf).2.file_on_streaming_form = false ∧
    validate_buffer 3 42 (do_prepare_for_update c8good c8goodbuf).1 false
      = .ok (32, false) :=
  prepare_for_update_spec 3 42 c8good c8goodbuf false 32 (by decide) (by decide)
    (by decide) (by decide) (by decide) (by decide)

/-! ## Free-space state after attach (claim C9) -/

/-- Claim C9 (amended): a successful `attach_file` leaves the free-space
state Invalid (line 492); `attach_buffer` and `attach_empty` leave the
free-space state unchanged — the claim's statement that every attach
operation sets it to Invalid holds only for `attach_file`. -/
theorem attach_free_space_state (lib cookie : Nat) :
    (∀ (s : State) (d : List Nat) (sh skipv sync : Bool) (top : Nat) (s' : State),
      attach_file lib cookie s d sh skipv sync = .ok (top, s') →
      s'.free_space_state = .Invalid) ∧
    (∀ (s : State) (d : List Nat) (top : Nat) (s' : State),
      attach_buffer lib cookie s d = .ok (top, s') →
      s'.free_space_state = s.free_space_state) ∧
    (∀ s : State, (attach_empty s).free_space_state = s.free_space_state) := by
  refine ⟨?_, ?_, fun s => rfl⟩
  · intro s d sh skipv sync top s' h
    unfold attach_file at h
    dsimp only [] at h
    rcases hv : (if skipv = true then (.ok (0, false) : Except VErr (Nat × Bool))
        else validate_buffer lib cookie d sh) with e | pr
    · rw [hv] at h
      simp at h
    · rw [hv] at h
      obtain ⟨t, st⟩ := pr
      dsimp only [] at h
      split at h
      · simp at h
      · split at h
        · simp at h
        · simp only [Except.ok.injEq, Prod.mk.injEq] at h
          rw [← h.2]
  · intro s d top s' h
    unfold attach_buffer at h
    rcases hv : validate_buffer lib cookie d false with e | pr
    · rw [hv] at h
      simp at h
    · rw [hv] at h
      obtain ⟨t, st⟩ := pr
      dsimp only [] at h
      simp only [Except.ok.injEq, Prod.mk.injEq] at h
      rw [← h.2]

/-- A minimal valid non-streaming file: both top refs 0, magic, format 3 in
both slots, flags 0. -/
def c9buf : List Nat := List.replicate 16 0 ++ [84, 45, 68, 66] ++ [3, 3, 0, 0]

/-- State after `attach_file` of `c9buf` from a fresh allocator. -/
def c9s1 : State :=
  ((attach_file 3 42 exInit c9buf false false false).toOption.getD (0, exInit)).2

/-- State after the sequence attach_file; reset_free_space_tracking; detach;
attach_buffer — a legal lifecycle for the allocator object. -/
def c9final : State :=
  ((attach_buffer 3 42 (detach (reset_free_space_tracking c9s1)) c9buf).toOption.getD
    (0, exInit)).2

/-- Counterexample to claim C9 as stated: after the successful attach
operation `attach_buffer` at the end of the legal sequence attach_file →
reset_free_space_tracking → detach → attach_buffer, the free-space state is
Clean, not Invalid; only `attach_file` forces Invalid. -/
theorem attach_state_counterexample :
    (attach_file 3 42 exInit c9buf false false false).isOk = true ∧
    c9s1.free_space_state = .Invalid ∧
    (detach (reset_free_space_tracking c9s1)).attach_mode = .attach_None ∧
    (attach_buffer 3 42 (detach (reset_free_space_tracking c9s1)) c9buf).isOk = true ∧
    c9final.free_space_state = .Clean ∧
    FreeSpaceState.Clean ≠ FreeSpaceState.Invalid := by
  decide

theorem attach_free_space_state_witness :
    c9s1.free_space_state = .Invalid ∧
    c9final.free_space_state = (detach (reset_free_space_tracking c9s1)).free_space_state ∧
    (attach_empty exInit).free_space_state = exInit.free_space_state :=
  ⟨(attach_free_space_state 3 42).1 exInit c9buf false false false 0 c9s1 (by rfl),
   (attach_free_space_state 3 42).2.1 (detach (reset_free_space_tracking c9s1)) c9buf 0
     c9final (by rfl),
   (attach_free_space_state 3 42).2.2 exInit⟩

/-! ## Reachable states and the free-list region invariant (claim C1) -/

/-- Caller contract of `do_free` ("matches prior alloc", spec section 6):
the freed block is nonempty and lies entirely in the immutable region when
`ref < m_baseline`, otherwise entirely within a single slab — exactly what
holds for any block handed out by `do_alloc` or described by an on-file
array. -/
def FreeOk (s : State) (ref size : Nat) : Prop :=
  0 < size ∧
  (ref < s.baseline → ref + size ≤ s.baseline) ∧
  (s.baseline ≤ ref →
    ∃ i, i < s.slabs.length ∧ slabStart s i ≤ ref ∧ ref + size ≤ slabEnd s i)

/-- One mutating operation of the attached allocator, with the guards the
source enforces (debug asserts and caller contracts). -/
inductive Step : State → State → Prop where
  | allocStep (s : State) (size : Nat) (mem : MemRef) (s' : State) :
      0 < size → size % 8 = 0 → do_alloc s size = (.ok mem, s') → Step s s'
  | freeStep (s : State) (ref size : Nat) (push_ok : Bool) :
      FreeOk s ref size → Step s (do_free s ref size push_ok)
  | reallocStep (s : State) (ref old_size new_size free_size : Nat) (push_ok : Bool)
      (mem : MemRef) (s_mid : State) :
      0 < new_size → new_size % 8 = 0 →
      do_alloc s new_size = (.ok mem, s_mid) →
      FreeOk s_mid ref free_size →
      Step s (do_realloc s ref old_size new_size free_size push_ok).2
  | resetStep (s : State) : Step s (reset_free_space_tracking s)
  | remapStep (s : State) (file_size : Nat) :
      (s.attach_mode = .attach_SharedFile ∨ s.attach_mode = .attach_UnsharedFile) →
      s.free_space_state = .Clean →
      s.baseline ≤ file_size → file_size % 8 = 0 →
      Step s (remap s file_size)

/-- A freshly constructed allocator: detached, no slabs, empty free lists
(the member containers are default-constructed `std::vector`s). -/
def InitialState (s : State) : Prop :=
  s.attach_mode = .attach_None ∧ s.slabs = [] ∧
  s.free_space = [] ∧ s.free_read_only = []

/-- States of the allocator lifecycle: one attach operation from a fresh
allocator, then any sequence of alloc / free / realloc /
reset_free_space_tracking / remap. -/
inductive Reachable (lib cookie : Nat) : State → Prop where
  | fileAttached (s : State) (d : List Nat) (sh skipv sync : Bool) (top : Nat) (s' : State) :
      InitialState s → attach_file lib cookie s d sh skipv sync = .ok (top, s') →
      Reachable lib cookie s'
  | bufferAttached (s : State) (d : List Nat) (top : Nat) (s' : State) :
      InitialState s → attach_buffer lib cookie s d = .ok (top, s') →
      Reachable lib cookie s'
  | emptyAttached (s : State) : InitialState s → Reachable lib cookie (attach_empty s)
  | step (s s' : State) : Reachable lib cookie s → Step s s' → Reachable lib cookie s'

/-- The inductive invariant: well-formed slab bounds; every mutable free
chunk nonempty and within one slab; every read-only free chunk nonempty and
within `[0, baseline)`; and in the Clean state the mutable free list is
exactly the canonical one-chunk-per-slab list with no read-only chunks. -/
def Inv (s : State) : Prop :=
  SlabsWf s ∧
  (∀ c ∈ s.free_space, 0 < c.size ∧ ChunkInSlab s c) ∧
  (∀ c ∈ s.free_read_only, 0 < c.size ∧ c.ref + c.size ≤ s.baseline) ∧
  (s.free_space_state = .Clean →
    s.free_space = canonicalChunks s.baseline s.slabs ∧ s.free_read_only = [])

/-- Chunks of a canonical free list over strictly increasing bounds are
nonempty and lie within their slab. -/
theorem canonical_inv : ∀ (slabs : List Slab) (b : Nat),
    List.Chain' (· < ·) (b :: slabs.map Slab.ref_end) →
    ∀ c ∈ canonicalChunks b slabs, 0 < c.size ∧
      ∃ i, i < slabs.length ∧ slabStartL b slabs i ≤ c.ref ∧
        c.ref + c.size ≤ (slabs.getD i default).ref_end := by
  intro slabs
  induction slabs with
  | nil => intro b _ c hc; simp [canonicalChunks] at hc
  | cons sl rest ih =>
      intro b hchain c hc
      have hbe : b < sl.ref_end := by
        have := List.chain'_cons.mp hchain
        simpa using this.1
      rcases List.mem_cons.mp hc with hc | hc
      · subst hc
        refine ⟨by simpa using hbe, 0, by simp, ?_, ?_⟩
        · exact Nat.le_refl _
        · show b + (sl.ref_end - b) ≤ sl.ref_end
          omega
      · obtain ⟨hpos, i, hi, hlo, hhi⟩ := ih sl.ref_end (List.chain'_cons.mp hchain).2 c hc
        refine ⟨hpos, i + 1, by simpa using hi, ?_, ?_⟩
        · show slabStartL b (sl :: rest) (i + 1) ≤ c.ref
          unfold slabStartL at hlo ⊢
          rw [if_neg (by omega)]
          cases i with
          | zero => simpa using hlo
          | succ k =>
              rw [if_neg (by omega)] at hlo
              simpa using hlo
        · simpa using hhi

/-- Preservation of the invariant by `reset_free_space_tracking`. -/
theorem inv_reset {s : State} (hinv : Inv s) :
    Inv (reset_free_space_tracking s) := by
  obtain ⟨hwf, hfm, hfr, hclean⟩ := hinv
  unfold reset_free_space_tracking
  by_cases h : s.free_space_state = .Clean
  · rw [if_pos h]
    exact ⟨hwf, hfm, hfr, hclean⟩
  · rw [if_neg h]
    refine ⟨hwf, ?_, ?_, ?_⟩
    · intro c hc
      obtain ⟨hpos, i, hi, hlo, hhi⟩ := canonical_inv s.slabs s.baseline hwf c hc
      exact ⟨hpos, i, hi, hlo, hhi⟩
    · intro c hc
      simp at hc
    · intro _
      exact ⟨rfl, rfl⟩

/-- When a successor free chunk starts exactly at the freed block's end and
no slab boundary separates them, it lies in the same slab as the block. -/
theorem succ_same_slab {s : State} (hwf : SlabsWf s) {ref size : Nat} {c : Chunk}
    (hsz : 0 < size) {i : Nat}
    (hi : i < s.slabs.length) (hlo : slabStart s i ≤ ref) (hhi : ref + size ≤ slabEnd s i)
    (hc : ChunkInSlab s c) (hcref : c.ref = ref + size)
    (hnb : ∀ k, k < s.slabs.length → slabEnd s k ≠ ref + size) :
    c.ref + c.size ≤ slabEnd s i := by
  obtain ⟨i', hi', hlo', hhi'⟩ := hc
  by_cases hc0 : c.size = 0
  · rw [hcref, hc0]
    have := hnb i hi
    omega
  have h1 : ref + size < slabEnd s i := by
    have := hnb i hi
    omega
  have h2 : ref + size < slabEnd s i' := by
    rw [hcref] at hhi'
    omega
  have h3 : slabStart s i' ≤ ref + size := by
    rw [hcref] at hlo'
    exact hlo'
  have h4 : slabStart s i ≤ ref + size := by omega
  have heq := slab_point_unique hwf hi hi' h4 h1 h3 h2
  rw [heq]
  exact hhi'

/-- When a predecessor free chunk ends exactly at the freed block's start
and no slab boundary separates them, it lies in the same slab as the
block. -/
theorem pred_same_slab {s : State} (hwf : SlabsWf s) {ref : Nat} {p : Chunk}
    {i : Nat} (hi : i < s.slabs.length)
    (hlo : slabStart s i ≤ ref) (hend : ref < slabEnd s i)
    (hp : ChunkInSlab s p) (hpsz : 0 < p.size) (hpend : p.ref + p.size = ref)
    (hnb : ∀ k, k < s.slabs.length → slabEnd s k ≠ ref) :
    slabStart s i ≤ p.ref := by
  obtain ⟨i'', hi'', hlo'', hhi''⟩ := hp
  have h1 : ref < slabEnd s i'' := by
    have := hnb i'' hi''
    omega
  have h2 : slabStart s i'' ≤ ref := by omega
  have heq := slab_point_unique hwf hi hi'' hlo hend h2 h1
  rw [heq]
  omega

/-- Writing one of the two free lists back with the Dirty state preserves
the invariant provided the written list's chunks lie in their region. -/
theorem inv_setFreeList {s : State} {ro : Bool} {l : List Chunk}
    (hwf : SlabsWf s)
    (hfm : ro = true → ∀ c ∈ s.free_space, 0 < c.size ∧ ChunkInSlab s c)
    (hfr : ro = false → ∀ c ∈ s.free_read_only, 0 < c.size ∧ c.ref + c.size ≤ s.baseline)
    (hl_mut : ro = false → ∀ c ∈ l, 0 < c.size ∧ ChunkInSlab s c)
    (hl_ro : ro = true → ∀ c ∈ l, 0 < c.size ∧ c.ref + c.size ≤ s.baseline) :
    Inv (setFreeList s ro l) := by
  cases ro
  · show Inv (if (false = true) then _ else _)
    rw [if_neg (by simp)]
    exact ⟨hwf, hl_mut rfl, hfr rfl, fun h => FreeSpaceState.noConfusion h⟩
  · show Inv (if (true = true) then _ else _)
    rw [if_pos rfl]
    exact ⟨hwf, hfm rfl, hl_ro rfl, fun h => FreeSpaceState.noConfusion h⟩

/-- Preservation of the invariant by `do_free` under its caller contract. -/
theorem inv_free {s : State} {ref size : Nat} {push_ok : Bool}
    (hinv : Inv s) (hok : FreeOk s ref size) :
    Inv (do_free s ref size push_ok) := by
  obtain ⟨hwf, hfm, hfr, hclean⟩ := hinv
  obtain ⟨hsz, hrole, hmut⟩ := hok
  unfold do_free
  by_cases hstate : s.free_space_state = .Invalid
  · rw [if_pos hstate]
    exact ⟨hwf, hfm, hfr, hclean⟩
  rw [if_neg hstate]
  dsimp only []
  by_cases hro : ref < s.baseline
  · -- the freed block is read-only: the target list is FR
    rw [decide_eq_true hro, if_pos rfl]
    have hQblock : ref + size ≤ s.baseline := hrole hro
    have hQpush : 0 < (⟨ref, size⟩ : Chunk).size ∧
        (⟨ref, size⟩ : Chunk).ref + (⟨ref, size⟩ : Chunk).size ≤ s.baseline := ⟨hsz, hQblock⟩
    have hTail0 : Inv
        (match (if findIdxA (fun sl => decide (sl.ref_end = ref)) s.slabs = none
                then findIdxA (fun c => decide (c.ref + c.size = ref)) s.free_read_only
                else none) with
         | some i => setFreeList s true (s.free_read_only.set i
             ⟨(s.free_read_only.getD i default).ref,
              (s.free_read_only.getD i default).size + size⟩)
         | none =>
             if push_ok = true then setFreeList s true (s.free_read_only ++ [⟨ref, size⟩])
             else { s with free_space_state := .Invalid }) := by
      by_cases hBp : findIdxA (fun sl => decide (sl.ref_end = ref)) s.slabs = none
      · rw [if_pos hBp]
        rcases hP : findIdxA (fun c => decide (c.ref + c.size = ref)) s.free_read_only
            with _ | i
        · rw [hP]
          dsimp only []
          cases push_ok
          · rw [if_neg (by simp)]
            exact ⟨hwf, hfm, hfr, fun h => FreeSpaceState.noConfusion h⟩
          · rw [if_pos rfl]
            refine inv_setFreeList hwf (fun _ => hfm) (fun h => nomatch h) (fun h => nomatch h) ?_
            intro _ c hc
            rcases List.mem_append.mp hc with hc | hc
            · exact hfr c hc
            · have : c = ⟨ref, size⟩ := by simpa using hc
              rw [this]
              exact hQpush
        · rw [hP]
          dsimp only []
          have hP' := findIdxA_some (d := default) hP
          have hpmem := getD_mem (d := default) hP'.1
          have hpend : (s.free_read_only.getD i default).ref
              + (s.free_read_only.getD i default).size = ref := of_decide_eq_true hP'.2
          refine inv_setFreeList hwf (fun _ => hfm) (fun h => nomatch h) (fun h => nomatch h) ?_
          intro _ c hc
          rcases mem_set hc with hc | hc
          · rw [hc]
            dsimp only []
            have := hfr _ hpmem
            exact ⟨by omega, by omega⟩
          · exact hfr c hc
      · rw [if_neg hBp]
        dsimp only []
        cases push_ok
        · rw [if_neg (by simp)]
          exact ⟨hwf, hfm, hfr, fun h => FreeSpaceState.noConfusion h⟩
        · rw [if_pos rfl]
          refine inv_setFreeList hwf (fun _ => hfm) (fun h => nomatch h) (fun h => nomatch h) ?_
          intro _ c hc
          rcases List.mem_append.mp hc with hc | hc
          · exact hfr c hc
          · have : c = ⟨ref, size⟩ := by simpa using hc
            rw [this]
            exact hQpush
    rcases hS : findIdxA (fun c => decide (c.ref = ref + size)) s.free_read_only with _ | j
    · rw [hS]
      dsimp only []
      exact hTail0
    · rw [hS]
      dsimp only []
      by_cases hBs : findIdxA (fun sl => decide (sl.ref_end = ref + size)) s.slabs = none
      · rw [if_pos hBs]
        dsimp only []
        have hS' := findIdxA_some (d := default) hS
        have hcmem := getD_mem (d := default) hS'.1
        have hcref : (s.free_read_only.getD j default).ref = ref + size :=
          of_decide_eq_true hS'.2
        have hcQ := hfr _ hcmem
        have hQsucc : 0 < (s.free_read_only.getD j default).size + size ∧
            ref + ((s.free_read_only.getD j default).size + size) ≤ s.baseline := by
          constructor
          · omega
          · omega
        have hfs1Q : ∀ c ∈ s.free_read_only.set j
            ⟨ref, (s.free_read_only.getD j default).size + size⟩,
            0 < c.size ∧ c.ref + c.size ≤ s.baseline := by
          intro c hc
          rcases mem_set hc with hc | hc
          · rw [hc]
            exact hQsucc
          · exact hfr c hc
        by_cases hBp : findIdxA (fun sl => decide (sl.ref_end = ref)) s.slabs = none
        · rw [if_pos hBp]
          rcases hP : findIdxA (fun c => decide (c.ref + c.size = ref))
              (s.free_read_only.set j
                ⟨ref, (s.free_read_only.getD j default).size + size⟩) with _ | i
          · dsimp only []
            exact inv_setFreeList hwf (fun _ => hfm) (fun h => nomatch h) (fun h => nomatch h)
              (fun _ => hfs1Q)
          · dsimp only []
            have hP' := findIdxA_some (d := default) hP
            have hpmem := getD_mem (d := default) hP'.1
            have hpend := of_decide_eq_true hP'.2
            have hpQ := hfs1Q _ hpmem
            have hgj : (s.free_read_only.set j
                ⟨ref, (s.free_read_only.getD j default).size + size⟩).getD j default
                = ⟨ref, (s.free_read_only.getD j default).size + size⟩ :=
              getD_set_self hS'.1
            refine inv_setFreeList hwf (fun _ => hfm) (fun h => nomatch h) (fun h => nomatch h) ?_
            intro _ c hc
            have hc2 := mem_eraseSwap hc
            rcases mem_set hc2 with hc3 | hc3
            · rw [hc3, hgj]
              dsimp only []
              refine ⟨by omega, ?_⟩
              show _ + (_ + ((s.free_read_only.getD j default).size + size)) ≤ s.baseline
              omega
            · exact hfs1Q c hc3
        · rw [if_neg hBp]
          dsimp only []
          exact inv_setFreeList hwf (fun _ => hfm) (fun h => nomatch h) (fun h => nomatch h)
            (fun _ => hfs1Q)
      · rw [if_neg hBs]
        dsimp only []
        exact hTail0
  · -- the freed block is mutable: the target list is FM
    rw [decide_eq_false hro, if_neg Bool.false_ne_true]
    obtain ⟨bi, hbi, hblo, hbhi⟩ := hmut (Nat.le_of_not_lt hro)
    have hQpush : 0 < (⟨ref, size⟩ : Chunk).size ∧ ChunkInSlab s ⟨ref, size⟩ :=
      ⟨hsz, bi, hbi, hblo, hbhi⟩
    have hTail0 : Inv
        (match (if findIdxA (fun sl => decide (sl.ref_end = ref)) s.slabs = none
                then findIdxA (fun c => decide (c.ref + c.size = ref)) s.free_space
                else none) with
         | some i => setFreeList s false (s.free_space.set i
             ⟨(s.free_space.getD i default).ref,
              (s.free_space.getD i default).size + size⟩)
         | none =>
             if push_ok = true then setFreeList s false (s.free_space ++ [⟨ref, size⟩])
             else { s with free_space_state := .Invalid }) := by
      by_cases hBp : findIdxA (fun sl => decide (sl.ref_end = ref)) s.slabs = none
      · rw [if_pos hBp]
        have hnbP : ∀ k, k < s.slabs.length → slabEnd s k ≠ ref := by
          intro k hk
          exact of_decide_eq_false (findIdxA_none hBp _ (getD_mem (d := default) hk))
        rcases hP : findIdxA (fun c => decide (c.ref + c.size = ref)) s.free_space
            with _ | i
        · rw [hP]
          dsimp only []
          cases push_ok
          · rw [if_neg (by simp)]
            exact ⟨hwf, hfm, hfr, fun h => FreeSpaceState.noConfusion h⟩
          · rw [if_pos rfl]
            refine inv_setFreeList hwf (fun h => nomatch h) (fun _ => hfr) ?_
              (fun h => nomatch h)
            intro _ c hc
            rcases List.mem_append.mp hc with hc | hc
            · exact hfm c hc
            · have : c = ⟨ref, size⟩ := by simpa using hc
              rw [this]
              exact hQpush
        · rw [hP]
          dsimp only []
          have hP' := findIdxA_some (d := default) hP
          have hpmem := getD_mem (d := default) hP'.1
          have hpend : (s.free_space.getD i default).ref
              + (s.free_space.getD i default).size = ref := of_decide_eq_true hP'.2
          have hpQ := hfm _ hpmem
          have hpstart : slabStart s bi ≤ (s.free_space.getD i default).ref :=
            pred_same_slab hwf hbi hblo (by omega) hpQ.2 hpQ.1 hpend hnbP
          refine inv_setFreeList hwf (fun h => nomatch h) (fun _ => hfr) ?_
            (fun h => nomatch h)
          intro _ c hc
          rcases mem_set hc with hc | hc
          · rw [hc]
            dsimp only []
            refine ⟨by omega, bi, hbi, hpstart, ?_⟩
            show (s.free_space.getD i default).ref
              + ((s.free_space.getD i default).size + size) ≤ slabEnd s bi
            omega
          · exact hfm c hc
      · rw [if_neg hBp]
        dsimp only []
        cases push_ok
        · rw [if_neg (by simp)]
          exact ⟨hwf, hfm, hfr, fun h => FreeSpaceState.noConfusion h⟩
        · rw [if_pos rfl]
          refine inv_setFreeList hwf (fun h => nomatch h) (fun _ => hfr) ?_
            (fun h => nomatch h)
          intro _ c hc
          rcases List.mem_append.mp hc with hc | hc
          · exact hfm c hc
          · have : c = ⟨ref, size⟩ := by simpa using hc
            rw [this]
            exact hQpush
    rcases hS : findIdxA (fun c => decide (c.ref = ref + size)) s.free_space with _ | j
    · rw [hS]
      dsimp only []
      exact hTail0
    · rw [hS]
      dsimp only []
      by_cases hBs : findIdxA (fun sl => decide (sl.ref_end = ref + size)) s.slabs = none
      · rw [if_pos hBs]
        dsimp only []
        have hnbS : ∀ k, k < s.slabs.length → slabEnd s k ≠ ref + size := by
          intro k hk
          exact of_decide_eq_false (findIdxA_none hBs _ (getD_mem (d := default) hk))
        have hS' := findIdxA_some (d := default) hS
        have hcmem := getD_mem (d := default) hS'.1
        have hcref : (s.free_space.getD j default).ref = ref + size :=
          of_decide_eq_true hS'.2
        have hcQ := hfm _ hcmem
        have hcend : (s.free_space.getD j default).ref
            + (s.free_space.getD j default).size ≤ slabEnd s bi :=
          succ_same_slab hwf hsz hbi hblo hbhi hcQ.2 hcref hnbS
        have hQsucc : 0 < (s.free_space.getD j default).size + size ∧
            ChunkInSlab s ⟨ref, (s.free_space.getD j default).size + size⟩ := by
          refine ⟨by omega, bi, hbi, hblo, ?_⟩
          show ref + ((s.free_space.getD j default).size + size) ≤ slabEnd s bi
          omega
        have hfs1Q : ∀ c ∈ s.free_space.set j
            ⟨ref, (s.free_space.getD j default).size + size⟩,
            0 < c.size ∧ ChunkInSlab s c := by
          intro c hc
          rcases mem_set hc with hc | hc
          · rw [hc]
            exact hQsucc
          · exact hfm c hc
        by_cases hBp : findIdxA (fun sl => decide (sl.ref_end = ref)) s.slabs = none
        · rw [if_pos hBp]
          have hnbP : ∀ k, k < s.slabs.length → slabEnd s k ≠ ref := by
            intro k hk
            exact of_decide_eq_false (findIdxA_none hBp _ (getD_mem (d := default) hk))
          rcases hP : findIdxA (fun c => decide (c.ref + c.size = ref))
              (s.free_space.set j
                ⟨ref, (s.free_space.getD j default).size + size⟩) with _ | i
          · dsimp only []
            exact inv_setFreeList hwf (fun h => nomatch h) (fun _ => hfr)
              (fun _ => hfs1Q) (fun h => nomatch h)
          · dsimp only []
            have hP' := findIdxA_some (d := default) hP
            have hpmem := getD_mem (d := default) hP'.1
            have hpend := of_decide_eq_true hP'.2
            have hpQ := hfs1Q _ hpmem
            have hpstart : slabStart s bi
                ≤ ((s.free_space.set j
                    ⟨ref, (s.free_space.getD j default).size + size⟩).getD i default).ref :=
              pred_same_slab hwf hbi hblo (by omega) hpQ.2 hpQ.1 hpend hnbP
            have hgj : (s.free_space.set j
                ⟨ref, (s.free_space.getD j default).size + size⟩).getD j default
                = ⟨ref, (s.free_space.getD j default).size + size⟩ :=
              getD_set_self hS'.1
            refine inv_setFreeList hwf (fun h => nomatch h) (fun _ => hfr) ?_
              (fun h => nomatch h)
            intro _ c hc
            have hc2 := mem_eraseSwap hc
            rcases mem_set hc2 with hc3 | hc3
            · rw [hc3, hgj]
              have h1 : 0 < ((s.free_space.set j
                  ⟨ref, (s.free_space.getD j default).size + size⟩).getD i default).size
                  + ((s.free_space.getD j default).size + size) := by omega
              have h2 : ((s.free_space.set j
                  ⟨ref, (s.free_space.getD j default).size + size⟩).getD i default).ref
                  + (((s.free_space.set j
                  ⟨ref, (s.free_space.getD j default).size + size⟩).getD i default).size
                  + ((s.free_space.getD j default).size + size)) ≤ slabEnd s bi := by
                omega
              exact ⟨h1, bi, hbi, hpstart, h2⟩
            · exact hfs1Q c hc3
        · rw [if_neg hBp]
          dsimp only []
          exact inv_setFreeList hwf (fun h => nomatch h) (fun _ => hfr)
            (fun _ => hfs1Q) (fun h => nomatch h)
      · rw [if_neg hBs]
        dsimp only []
        exact hTail0

/-- Every slab start (and the baseline) is at most the grow point. -/
theorem slabStart_le_growStart {s : State} (hwf : SlabsWf s) {i : Nat}
    (hi : i ≤ s.slabs.length) : slabStart s i ≤ growStart s := by
  cases i with
  | zero =>
      have h1 := growStart_not_lt_baseline hwf
      have h0 : slabStart s 0 = s.baseline := rfl
      omega
  | succ k =>
      have hk : k < s.slabs.length := by omega
      have h1 : slabStart s (k + 1) = slabEnd s k := by
        unfold slabStart slabEnd
        rw [if_neg (by omega)]
        rfl
      rw [h1]
      exact slabEnd_le_growStart hwf hk

/-- The bounds of the grown state are the old bounds plus the new end. -/
theorem bounds_allocGrow (s : State) (size : Nat) :
    bounds (allocGrowState s size) = bounds s ++ [growStart s + grownSize s size] := by
  have hslabs : (allocGrowState s size).slabs
      = s.slabs ++ [⟨growStart s + grownSize s size, List.replicate (grownSize s size) 0⟩] :=
    rfl
  have hbase : (allocGrowState s size).baseline = s.baseline := rfl
  unfold bounds
  rw [hslabs, hbase, List.map_append]
  rfl

/-- Appending the grown slab keeps the bounds strictly increasing. -/
theorem slabsWf_allocGrow {s : State} (hwf : SlabsWf s) {size : Nat} :
    SlabsWf (allocGrowState s size) := by
  show List.Chain' (· < ·) (bounds (allocGrowState s size))
  rw [bounds_allocGrow]
  rw [List.chain'_iff_pairwise, List.pairwise_append]
  refine ⟨List.chain'_iff_pairwise.mp hwf, List.pairwise_singleton _ _, ?_⟩
  intro a ha y hy
  have hy' : y = growStart s + grownSize s size := by simpa using hy
  subst hy'
  obtain ⟨⟨i, hilen⟩, rfl⟩ := List.mem_iff_get.mp ha
  have hile : i ≤ s.slabs.length := by
    have h2 := hilen
    rw [bounds_length] at h2
    omega
  have heq : (bounds s).get ⟨i, hilen⟩ = slabStart s i := by
    rw [slabStart_eq_bounds hile, getD_eq_get hilen]
  rw [heq]
  have h1 := slabStart_le_growStart hwf hile
  have h2 := @grownSize_pos s size
  omega

/-- Chunks inside an old slab stay inside it after the slab append. -/
theorem chunkInSlab_allocGrow {s : State} {size : Nat} {c : Chunk}
    (h : ChunkInSlab s c) : ChunkInSlab (allocGrowState s size) c := by
  obtain ⟨i, hi, hlo, hhi⟩ := h
  have hstart : slabStart (allocGrowState s size) i = slabStart s i := by
    by_cases h0 : i = 0
    · subst h0
      rfl
    · unfold slabStart
      rw [if_neg h0, if_neg h0]
      show ((s.slabs ++ [_]).getD (i-1) default).ref_end = _
      rw [getD_append_left (by omega)]
  have hend : slabEnd (allocGrowState s size) i = slabEnd s i := by
    unfold slabEnd
    show ((s.slabs ++ [_]).getD i default).ref_end = _
    rw [getD_append_left hi]
  refine ⟨i, ?_, ?_, ?_⟩
  · show i < (s.slabs ++ [_]).length
    rw [List.length_append]
    simp
    omega
  · rw [hstart]
    exact hlo
  · rw [hend]
    exact hhi

/-- Start of the freshly appended slab. -/
theorem slabStart_allocGrow (s : State) (size : Nat) :
    slabStart (allocGrowState s size) s.slabs.length = growStart s := by
  have hslabs : (allocGrowState s size).slabs
      = s.slabs ++ [⟨growStart s + grownSize s size, List.replicate (grownSize s size) 0⟩] :=
    rfl
  have hbase : (allocGrowState s size).baseline = s.baseline := rfl
  unfold slabStart
  by_cases hemp : s.slabs = []
  · rw [if_pos (by rw [hemp]; rfl), hbase]
    unfold growStart
    rw [if_pos hemp]
  · have hn : 0 < s.slabs.length := List.length_pos.mpr hemp
    rw [if_neg (by omega), hslabs,
        getD_append_left (by omega : s.slabs.length - 1 < s.slabs.length)]
    rw [growStart_eq_last_slabEnd hemp]
    rfl

/-- End of the freshly appended slab. -/
theorem slabEnd_allocGrow (s : State) (size : Nat) :
    slabEnd (allocGrowState s size) s.slabs.length = growStart s + grownSize s size := by
  have hslabs : (allocGrowState s size).slabs
      = s.slabs ++ [⟨growStart s + grownSize s size, List.replicate (grownSize s size) 0⟩] :=
    rfl
  unfold slabEnd
  rw [hslabs, getD_append_length]

/-- Preservation of the invariant by the grow branch of `do_alloc`. -/
theorem inv_allocGrow {s : State} {size : Nat} (hinv : Inv s) :
    Inv (allocGrowState s size) := by
  obtain ⟨hwf, hfm, hfr, _⟩ := hinv
  refine ⟨slabsWf_allocGrow hwf, ?_, ?_, fun h => FreeSpaceState.noConfusion h⟩
  · intro c hc
    replace hc : c ∈ s.free_space ++
        (if size < grownSize s size
         then [⟨growStart s + size, grownSize s size - size⟩] else []) := hc
    rcases List.mem_append.mp hc with hc | hc
    · obtain ⟨hpos, hin⟩ := hfm c hc
      exact ⟨hpos, chunkInSlab_allocGrow hin⟩
    · by_cases hlt : size < grownSize s size
      · rw [if_pos hlt] at hc
        have hceq : c = ⟨growStart s + size, grownSize s size - size⟩ := by simpa using hc
        subst hceq
        refine ⟨?_, s.slabs.length, ?_, ?_, ?_⟩
        · show 0 < grownSize s size - size
          omega
        · show s.slabs.length < (s.slabs ++ [_]).length
          rw [List.length_append]
          simp
        · rw [slabStart_allocGrow]
          show growStart s ≤ growStart s + size
          omega
        · rw [slabEnd_allocGrow]
          show growStart s + size + (grownSize s size - size) ≤ _
          omega
      · rw [if_neg hlt] at hc
        simp at hc
  · intro c hc
    exact hfr c hc

/-- Preservation of the invariant by the reuse branch of `do_alloc`. -/
theorem inv_allocFit {s : State} {size j : Nat} (hinv : Inv s)
    (hj : j < s.free_space.length)
    (hple : size ≤ (s.free_space.getD j default).size) :
    Inv (allocFitState s size j) := by
  obtain ⟨hwf, hfm, hfr, _⟩ := hinv
  refine ⟨hwf, ?_, hfr, fun h => FreeSpaceState.noConfusion h⟩
  intro c hc
  replace hc : c ∈ (if (s.free_space.getD j default).size - size = 0
      then eraseSwap s.free_space j
      else s.free_space.set j ⟨(s.free_space.getD j default).ref + size,
                               (s.free_space.getD j default).size - size⟩) := hc
  by_cases hrest : (s.free_space.getD j default).size - size = 0
  · rw [if_pos hrest] at hc
    obtain ⟨hpos, hin⟩ := hfm c (mem_eraseSwap hc)
    exact ⟨hpos, hin⟩
  · rw [if_neg hrest] at hc
    rcases mem_set hc with hceq | hcmem
    · subst hceq
      obtain ⟨hpos, i, hi, hlo, hhi⟩ := hfm _ (getD_mem (d := default) hj)
      refine ⟨?_, i, hi, ?_, ?_⟩
      · show 0 < (s.free_space.getD j default).size - size
        omega
      · show slabStart s i ≤ (s.free_space.getD j default).ref + size
        omega
      · show (s.free_space.getD j default).ref + size
            + ((s.free_space.getD j default).size - size) ≤ slabEnd s i
        omega
    · exact hfm c hcmem

/-- Preservation of the invariant by `do_alloc` (either outcome). -/
theorem inv_alloc {s : State} {size : Nat} {r : Except AllocErr MemRef} {s' : State}
    (hinv : Inv s) (halloc : do_alloc s size = (r, s')) : Inv s' := by
  by_cases hstate : s.free_space_state = .Invalid
  · unfold do_alloc at halloc
    rw [if_pos hstate] at halloc
    injection halloc with h1 h2
    subst h2
    exact hinv
  · rcases hfi : revFindIdx? (fun c => decide (size ≤ c.size)) s.free_space with _ | j
    · have hnofit : ∀ c ∈ s.free_space, c.size < size := by
        intro c hc
        have h1 := revFindIdx?_none hfi c hc
        have h2 := of_decide_eq_false h1
        omega
      rw [do_alloc_nofit s size hstate hnofit] at halloc
      injection halloc with h1 h2
      subst h2
      exact inv_allocGrow hinv
    · rw [do_alloc_fit s size j hstate hfi] at halloc
      injection halloc with h1 h2
      subst h2
      have hj := revFindIdx?_some (d := (default : Chunk)) hfi
      exact inv_allocFit hinv hj.1 (of_decide_eq_true hj.2)

/-! ## Geometry-preserving byte writes (for `do_realloc`) -/

/-- Two states with the same allocator geometry: byte writes through
`translate`d addresses change slab payloads only. -/
def SameGeom (s t : State) : Prop :=
  t.baseline = s.baseline ∧
  t.slabs.map Slab.ref_end = s.slabs.map Slab.ref_end ∧
  t.free_space = s.free_space ∧
  t.free_read_only = s.free_read_only ∧
  t.free_space_state = s.free_space_state

theorem sameGeom_refl (s : State) : SameGeom s s := ⟨rfl, rfl, rfl, rfl, rfl⟩

theorem sameGeom_trans {s t u : State} (h1 : SameGeom s t) (h2 : SameGeom t u) :
    SameGeom s u :=
  ⟨h2.1.trans h1.1, h2.2.1.trans h1.2.1, h2.2.2.1.trans h1.2.2.1,
   h2.2.2.2.1.trans h1.2.2.2.1, h2.2.2.2.2.trans h1.2.2.2.2⟩

theorem sameGeom_length {s t : State} (hg : SameGeom s t) :
    t.slabs.length = s.slabs.length := by
  have := congrArg List.length hg.2.1
  simpa using this

theorem set_getD_self : ∀ (l : List α) (i : Nat) (d : α), l.set i (l.getD i d) = l := by
  intro l
  induction l with
  | nil => intro i d; rfl
  | cons x t ih =>
      intro i d
      cases i with
      | zero => rfl
      | succ k =>
          show x :: t.set k (t.getD k d) = x :: t
          rw [ih]

theorem set_ge_length {l : List α} {i : Nat} {a : α} (h : l.length ≤ i) :
    l.set i a = l := by
  induction l generalizing i with
  | nil => rfl
  | cons x t ih =>
      cases i with
      | zero => simp at h
      | succ k =>
          show x :: t.set k a = x :: t
          rw [ih (by simpa using h)]

theorem sameGeom_writeByteAddr (s : State) (a : Addr) (v : Nat) :
    SameGeom s (writeByteAddr s a v) := by
  cases a with
  | file o => exact sameGeom_refl s
  | slab i off =>
      refine ⟨rfl, ?_, rfl, rfl, rfl⟩
      show (s.slabs.set i ⟨(s.slabs.getD i default).ref_end,
          (s.slabs.getD i default).data.set off v⟩).map Slab.ref_end
        = s.slabs.map Slab.ref_end
      rw [List.map_set]
      show (s.slabs.map Slab.ref_end).set i ((s.slabs.getD i default).ref_end)
        = s.slabs.map Slab.ref_end
      by_cases hi : i < s.slabs.length
      · have h2 : (s.slabs.getD i default).ref_end
            = (s.slabs.map Slab.ref_end).getD i ((default : Slab).ref_end) :=
          (getD_map hi).symm
        rw [h2, set_getD_self]
      · exact set_ge_length (by rw [List.length_map]; omega)

theorem sameGeom_copyLoop (src dst : Addr) : ∀ (rem k : Nat) (s : State),
    SameGeom s (copyLoop src dst k rem s) := by
  intro rem
  induction rem with
  | zero => intro k s; exact sameGeom_refl s
  | succ m ih =>
      intro k s
      show SameGeom s (copyLoop src dst (k+1) m
        (writeByteAddr s (addrAdd dst k) (readByte s (addrAdd src k))))
      exact sameGeom_trans
        (sameGeom_writeByteAddr s (addrAdd dst k) (readByte s (addrAdd src k)))
        (ih (k+1) (writeByteAddr s (addrAdd dst k) (readByte s (addrAdd src k))))

theorem slabStart_congr {s t : State} (hg : SameGeom s t) {i : Nat}
    (hi : i ≤ s.slabs.length) : slabStart t i = slabStart s i := by
  unfold slabStart
  by_cases h0 : i = 0
  · rw [if_pos h0, if_pos h0, hg.1]
  · rw [if_neg h0, if_neg h0]
    have hi1 : i - 1 < s.slabs.length := by omega
    have hi1t : i - 1 < t.slabs.length := by rw [sameGeom_length hg]; omega
    have h1 : (t.slabs.getD (i-1) default).ref_end
        = (t.slabs.map Slab.ref_end).getD (i-1) ((default : Slab).ref_end) :=
      (getD_map hi1t).symm
    have h2 : (s.slabs.getD (i-1) default).ref_end
        = (s.slabs.map Slab.ref_end).getD (i-1) ((default : Slab).ref_end) :=
      (getD_map hi1).symm
    rw [h1, h2, hg.2.1]

theorem slabEnd_congr {s t : State} (hg : SameGeom s t) {i : Nat}
    (hi : i < s.slabs.length) : slabEnd t i = slabEnd s i := by
  unfold slabEnd
  have hit : i < t.slabs.length := by rw [sameGeom_length hg]; omega
  have h1 : (t.slabs.getD i default).ref_end
      = (t.slabs.map Slab.ref_end).getD i ((default : Slab).ref_end) :=
    (getD_map hit).symm
  have h2 : (s.slabs.getD i default).ref_end
      = (s.slabs.map Slab.ref_end).getD i ((default : Slab).ref_end) :=
    (getD_map hi).symm
  rw [h1, h2, hg.2.1]

theorem chunkInSlab_congr {s t : State} (hg : SameGeom s t) {c : Chunk}
    (h : ChunkInSlab s c) : ChunkInSlab t c := by
  obtain ⟨i, hi, hlo, hhi⟩ := h
  refine ⟨i, ?_, ?_, ?_⟩
  · rw [sameGeom_length hg]
    omega
  · rw [slabStart_congr hg (by omega)]
    exact hlo
  · rw [slabEnd_congr hg hi]
    exact hhi

theorem canonicalChunks_congr : ∀ {l1 l2 : List Slab},
    l1.map Slab.ref_end = l2.map Slab.ref_end →
    ∀ b, canonicalChunks b l1 = canonicalChunks b l2 := by
  intro l1
  induction l1 with
  | nil =>
      intro l2 h b
      cases l2 with
      | nil => rfl
      | cons y u => simp at h
  | cons x t ih =>
      intro l2 h b
      cases l2 with
      | nil => simp at h
      | cons y u =>
          simp only [List.map_cons, List.cons.injEq] at h
          show (⟨b, x.ref_end - b⟩ : Chunk) :: canonicalChunks x.ref_end t
            = ⟨b, y.ref_end - b⟩ :: canonicalChunks y.ref_end u
          rw [h.1, ih h.2 y.ref_end]

theorem inv_sameGeom {s t : State} (hg : SameGeom s t) (hinv : Inv s) : Inv t := by
  obtain ⟨hwf, h2, h3, h4⟩ := hinv
  refine ⟨?_, ?_, ?_, ?_⟩
  · show List.Chain' (· < ·) (bounds t)
    have hb : bounds t = bounds s := by
      unfold bounds
      rw [hg.1, hg.2.1]
    rw [hb]
    exact hwf
  · intro c hc
    rw [hg.2.2.1] at hc
    obtain ⟨hp, hin⟩ := h2 c hc
    exact ⟨hp, chunkInSlab_congr hg hin⟩
  · intro c hc
    rw [hg.2.2.2.1] at hc
    obtain ⟨hp, hle⟩ := h3 c hc
    exact ⟨hp, by rw [hg.1]; exact hle⟩
  · intro hcl
    rw [hg.2.2.2.2] at hcl
    obtain ⟨ha, hb⟩ := h4 hcl
    refine ⟨?_, by rw [hg.2.2.2.1, hb]⟩
    rw [hg.2.2.1, ha, hg.1]
    exact canonicalChunks_congr hg.2.1.symm s.baseline

theorem freeOk_sameGeom {s t : State} {ref size : Nat} (hg : SameGeom s t)
    (h : FreeOk s ref size) : FreeOk t ref size := by
  obtain ⟨h1, h2, h3⟩ := h
  refine ⟨h1, ?_, ?_⟩
  · intro hlt
    rw [hg.1] at hlt ⊢
    exact h2 hlt
  · intro hge
    rw [hg.1] at hge
    obtain ⟨i, hi, hlo, hhi⟩ := h3 hge
    refine ⟨i, ?_, ?_, ?_⟩
    · rw [sameGeom_length hg]
      omega
    · rw [slabStart_congr hg (by omega)]
      exact hlo
    · rw [slabEnd_congr hg hi]
      exact hhi

/-- Preservation of the invariant by `do_realloc` under the alloc result and
the free contract on the mid state. -/
theorem inv_realloc {s : State} {ref old_size new_size free_size : Nat}
    {push_ok : Bool} {mem : MemRef} {s_mid : State}
    (hinv : Inv s) (halloc : do_alloc s new_size = (.ok mem, s_mid))
    (hfree : FreeOk s_mid ref free_size) :
    Inv (do_realloc s ref old_size new_size free_size push_ok).2 := by
  have hmid : Inv s_mid := inv_alloc hinv halloc
  unfold do_realloc
  rw [halloc]
  dsimp only []
  rcases ht : do_translate s_mid ref with _ | src <;>
    rcases ha : mem.addr with _ | dst <;>
    dsimp only [] <;>
    first
      | exact inv_free hmid hfree
      | · have hg := sameGeom_copyLoop src dst old_size 0 s_mid
          exact inv_free (inv_sameGeom hg hmid) (freeOk_sameGeom hg hfree)

/-! ## Remap preservation -/

/-- Rebasing the canonical free list of a well-formed slab vector yields the
canonical free list of the rebased slab vector, over well-formed bounds
starting at the new baseline. -/
theorem rebase_canonical : ∀ (slabs : List Slab) (b r : Nat),
    List.Chain' (· < ·) (b :: slabs.map Slab.ref_end) →
    (rebase r (canonicalChunks b slabs) slabs).1
        = canonicalChunks r (rebase r (canonicalChunks b slabs) slabs).2
      ∧ List.Chain' (· < ·)
          (r :: (rebase r (canonicalChunks b slabs) slabs).2.map Slab.ref_end) := by
  intro slabs
  induction slabs with
  | nil =>
      intro b r h
      exact ⟨rfl, List.chain'_singleton r⟩
  | cons sl rest ih =>
      intro b r hchain
      have hbe : b < sl.ref_end := by
        have := List.chain'_cons.mp hchain
        simpa using this.1
      have htail := (List.chain'_cons.mp hchain).2
      obtain ⟨ih1, ih2⟩ := ih sl.ref_end (r + (sl.ref_end - b)) htail
      have e1 : canonicalChunks b (sl :: rest)
          = ⟨b, sl.ref_end - b⟩ :: canonicalChunks sl.ref_end rest := rfl
      have e2 : rebase r (⟨b, sl.ref_end - b⟩ :: canonicalChunks sl.ref_end rest) (sl :: rest)
          = (⟨r, sl.ref_end - b⟩ ::
               (rebase (r + (sl.ref_end - b)) (canonicalChunks sl.ref_end rest) rest).1,
             ⟨r + (sl.ref_end - b), sl.data⟩ ::
               (rebase (r + (sl.ref_end - b)) (canonicalChunks sl.ref_end rest) rest).2) := rfl
      constructor
      · rw [e1, e2]
        dsimp only []
        rw [ih1]
        have e3 : canonicalChunks r (⟨r + (sl.ref_end - b), sl.data⟩ ::
              (rebase (r + (sl.ref_end - b)) (canonicalChunks sl.ref_end rest) rest).2)
            = ⟨r, r + (sl.ref_end - b) - r⟩ :: canonicalChunks (r + (sl.ref_end - b))
                (rebase (r + (sl.ref_end - b)) (canonicalChunks sl.ref_end rest) rest).2 := rfl
        rw [e3]
        have hx : r + (sl.ref_end - b) - r = sl.ref_end - b := by omega
        rw [hx]
      · rw [e1, e2]
        dsimp only []
        rw [List.map_cons]
        refine List.chain'_cons.mpr ⟨?_, ?_⟩
        · show r < r + (sl.ref_end - b)
          omega
        · exact ih2

/-- Preservation of the invariant by `remap` in the Clean state. -/
theorem inv_remap {s : State} {fsize : Nat} (hinv : Inv s)
    (hcl : s.free_space_state = .Clean) : Inv (remap s fsize) := by
  obtain ⟨hwf, hfm, hfr, hclean⟩ := hinv
  obtain ⟨hA, hB⟩ := hclean hcl
  unfold remap
  dsimp only []
  rw [hA]
  obtain ⟨hp1, hp2⟩ := rebase_canonical s.slabs s.baseline fsize hwf
  refine ⟨?_, ?_, ?_, ?_⟩
  · show List.Chain' (· < ·) (fsize ::
      (rebase fsize (canonicalChunks s.baseline s.slabs) s.slabs).2.map Slab.ref_end)
    exact hp2
  · intro c hc
    replace hc : c ∈ (rebase fsize (canonicalChunks s.baseline s.slabs) s.slabs).1 := hc
    rw [hp1] at hc
    obtain ⟨hpos, i, hi, hlo, hhi⟩ := canonical_inv _ fsize hp2 c hc
    exact ⟨hpos, i, hi, hlo, hhi⟩
  · intro c hc
    replace hc : c ∈ s.free_read_only := hc
    rw [hB] at hc
    simp at hc
  · intro _
    exact ⟨hp1, hB⟩

/-! ## Establishing the invariant at attach time -/

theorem attach_file_ok_state {lib cookie : Nat} {s : State} {d : List Nat}
    {sh skipv sync : Bool} {top : Nat} {s' : State}
    (h : attach_file lib cookie s d sh skipv sync = .ok (top, s')) :
    s'.slabs = s.slabs ∧ s'.free_space = s.free_space ∧
      s'.free_read_only = s.free_read_only ∧ s'.free_space_state = .Invalid := by
  unfold attach_file at h
  dsimp only [] at h
  rcases hv : (if skipv = true then (Except.ok (0, false) : Except VErr (Nat × Bool))
      else validate_buffer lib cookie d sh) with e | v
  · rw [hv] at h
    dsimp only [] at h
    simp at h
  · obtain ⟨top', str⟩ := v
    rw [hv] at h
    dsimp only [] at h
    by_cases h1 : sync = true ∧ ¬ (byteAt d 23 / 2 % 2 = 1)
    · rw [if_pos h1] at h
      simp at h
    · rw [if_neg h1] at h
      by_cases h2 : sync = false ∧ (byteAt d 23 / 2 % 2 = 1)
      · rw [if_pos h2] at h
        simp at h
      · rw [if_neg h2] at h
        injection h with h3
        injection h3 with h4 h5
        subst h5
        exact ⟨rfl, rfl, rfl, rfl⟩

theorem attach_buffer_ok_state {lib cookie : Nat} {s : State} {d : List Nat}
    {top : Nat} {s' : State}
    (h : attach_buffer lib cookie s d = .ok (top, s')) :
    s'.slabs = s.slabs ∧ s'.free_space = s.free_space ∧
      s'.free_read_only = s.free_read_only ∧
      s'.free_space_state = s.free_space_state := by
  unfold attach_buffer at h
  rcases hv : validate_buffer lib cookie d false with e | v
  · rw [hv] at h
    simp at h
  · obtain ⟨top', str⟩ := v
    rw [hv] at h
    dsimp only [] at h
    injection h with h3
    injection h3 with h4 h5
    subst h5
    exact ⟨rfl, rfl, rfl, rfl⟩

/-- Every reachable state satisfies the inductive invariant. -/
theorem inv_reachable {lib cookie : Nat} {s : State}
    (h : Reachable lib cookie s) : Inv s := by
  induction h with
  | fileAttached s0 d sh skipv sync top s' hinit hatt =>
      obtain ⟨hsl, hfm, hfr, hst⟩ := attach_file_ok_state hatt
      obtain ⟨_, hslabs0, hFM0, hFR0⟩ := hinit
      refine ⟨?_, ?_, ?_, ?_⟩
      · show List.Chain' (· < ·) (bounds s')
        unfold bounds
        rw [hsl, hslabs0]
        exact List.chain'_singleton _
      · intro c hc
        rw [hfm, hFM0] at hc
        simp at hc
      · intro c hc
        rw [hfr, hFR0] at hc
        simp at hc
      · intro hcl
        rw [hst] at hcl
        exact FreeSpaceState.noConfusion hcl
  | bufferAttached s0 d top s' hinit hatt =>
      obtain ⟨hsl, hfm, hfr, hst⟩ := attach_buffer_ok_state hatt
      obtain ⟨_, hslabs0, hFM0, hFR0⟩ := hinit
      refine ⟨?_, ?_, ?_, ?_⟩
      · show List.Chain' (· < ·) (bounds s')
        unfold bounds
        rw [hsl, hslabs0]
        exact List.chain'_singleton _
      · intro c hc
        rw [hfm, hFM0] at hc
        simp at hc
      · intro c hc
        rw [hfr, hFR0] at hc
        simp at hc
      · intro _
        refine ⟨?_, by rw [hfr, hFR0]⟩
        rw [hfm, hFM0, hsl, hslabs0]
        rfl
  | emptyAttached s0 hinit =>
      obtain ⟨_, hslabs0, hFM0, hFR0⟩ := hinit
      refine ⟨?_, ?_, ?_, ?_⟩
      · show List.Chain' (· < ·) (bounds (attach_empty s0))
        unfold bounds
        show List.Chain' (· < ·) (24 :: s0.slabs.map Slab.ref_end)
        rw [hslabs0]
        exact List.chain'_singleton _
      · intro c hc
        replace hc : c ∈ s0.free_space := hc
        rw [hFM0] at hc
        simp at hc
      · intro c hc
        replace hc : c ∈ s0.free_read_only := hc
        rw [hFR0] at hc
        simp at hc
      · intro _
        refine ⟨?_, ?_⟩
        · show s0.free_space = canonicalChunks 24 s0.slabs
          rw [hFM0, hslabs0]
          rfl
        · show s0.free_read_only = []
          exact hFR0
  | step s0 s1 hreach hstep ih =>
      cases hstep with
      | allocStep size mem s1 h0 h8 halloc => exact inv_alloc ih halloc
      | freeStep ref size push_ok hok => exact inv_free ih hok
      | reallocStep ref old_size new_size free_size push_ok mem s_mid h0 h8
          halloc hok =>
          exact inv_realloc ih halloc hok
      | resetStep => exact inv_reset ih
      | remapStep fsize hmode hcl hble hal => exact inv_remap ih hcl

/-- Claim C1: in every reachable allocator state — one successful attach
operation followed by any sequence of alloc, free, realloc,
reset_free_space_tracking and remap under the source's caller contracts —
every chunk of the mutable free list lies entirely within the ref range of
a single slab, and every chunk of the read-only free list lies entirely
within the immutable region below the baseline; no free chunk crosses a
slab boundary or the immutable/mutable divide. -/
theorem free_chunks_respect_regions {lib cookie : Nat} {s : State}
    (h : Reachable lib cookie s) :
    (∀ c ∈ s.free_space, ∃ i, i < s.slabs.length ∧
        slabStart s i ≤ c.ref ∧ c.ref + c.size ≤ slabEnd s i) ∧
    (∀ c ∈ s.free_read_only, c.ref + c.size ≤ s.baseline) := by
  obtain ⟨-, h2, h3, -⟩ := inv_reachable h
  exact ⟨fun c hc => (h2 c hc).2, fun c hc => (h3 c hc).2⟩

theorem free_chunks_respect_regions_witness :
    Reachable 0 0 exOneSlab ∧
    ((∀ c ∈ exOneSlab.free_space, ∃ i, i < exOneSlab.slabs.length ∧
        slabStart exOneSlab i ≤ c.ref ∧ c.ref + c.size ≤ slabEnd exOneSlab i) ∧
     (∀ c ∈ exOneSlab.free_read_only, c.ref + c.size ≤ exOneSlab.baseline)) :=
  have hr : Reachable 0 0 exOneSlab :=
    Reachable.step exEmpty exOneSlab
      (Reachable.emptyAttached exInit ⟨rfl, rfl, rfl, rfl⟩)
      (Step.allocStep exEmpty 8 ⟨some (.slab 0 0), 24⟩ exOneSlab
        (by decide) (by decide) rfl)
  ⟨hr, free_chunks_respect_regions hr⟩

end RealmSlab
